import Mathlib

set_option maxRecDepth 4000

/-!
Verification development for the trade-matrix kernel of the heatmap_demo
repository.

The repository loads bilateral trade records, ranks countries by total
quantity (exports + imports) and pivots the records into a dense N x N
importer-by-exporter matrix.  We embed the recurring kernel shallowly:

* `RawRecord` / `TradeRecord` model rows of the BACI dataframe before and
  after the country-code-to-name mapping (`oak_df`); a failed lookup is
  `Option.none`, modelling a pandas NaN key.
* `groupbySum` models `df.groupby(key)["quantity"].sum()`: group keys are
  the sorted distinct non-null keys (pandas sorts group keys and drops NaN
  keys), each mapped to the sum of `quantity` over its rows.
* `addSeries` models `Series.add(other, fill_value=0)`: the index is the
  sorted union of both indexes and a missing side contributes 0.
* `rankFirstDesc` models `Series.rank(ascending=False, method="first")`:
  the rank of entry `i` is 1 plus the number of strictly larger values
  plus the number of equal values at earlier positions.
* `country_ranks` models `BaciDataset.country_ranks`
  (src/heatmap_demo/data/baci_dataset.py): rank the export+import totals
  and sort the result by rank ascending.
* `full_matrix` / `slice_for_n` model `StreamlitHeatmap.full_matrix` and
  `StreamlitHeatmap.slice_for_n`
  (src/heatmap_demo/dynamic/streamlit_dynamic.py): the full pivot table
  `pivot_table(index="importer_name", columns="exporter_name",
  values="quantity", aggfunc="sum", fill_value=0.0)` reindexed to the
  rank-ordered country list on both axes denotes the matrix whose cell
  (imp, exp) is the sum of `quantity` over records with that importer and
  exporter; `.loc[countries[:n], countries[:n]]` selects the first n rows
  and columns because the labels are the first n index entries in order.
* `create_heatmap_data` models `BokehServerHeatmap.create_heatmap_data`
  (src/oak_trade_agent/dynamic/bokeh_dynamic.py) and the identical
  `StreamlitHeatmap.create_heatmap_figure` data path
  (src/oak_trade_agent/dynamic/streamlit_heatmap.py): restrict the
  pair-aggregated records to the top-n countries, pivot, and reindex to
  the countries of `sorted_countries` that are present among the filtered
  rows (absent importers/exporters are dropped, not zero-filled).

Quantities and values are modelled as rationals; pandas float rounding is
not modelled (no claim depends on it).
-/

namespace HeatmapDemo

attribute [local semireducible] Rat.add Rat.mul Rat.sub Rat.inv Rat.ofScientific

abbrev Country := String

/-- Lexicographic comparison of character lists by code point: how Python
(and hence pandas key sorting) compares the country-name strings. -/
def charsLt : List Char → List Char → Bool
  | _, [] => false
  | [], _ :: _ => true
  | a :: as, b :: bs => if a < b then true else if b < a then false else charsLt as bs

/-- Strict lexicographic order on country names. -/
def keyLT (a b : Country) : Prop := charsLt a.data b.data = true

/-- Lexicographic order on country names (the order in which pandas sorts
group keys and aligns indexes). -/
def keyLE (a b : Country) : Prop := charsLt b.data a.data = false

instance : DecidableRel keyLT := fun a b => by unfold keyLT; infer_instance

instance : DecidableRel keyLE := fun a b => by unfold keyLE; infer_instance

/-- A raw row of the BACI csv after column renaming
(`t,i,j,k,v,q` -> `year, exporter, importer, product, value, quantity`). -/
structure RawRecord where
  year : ℤ
  exporter : ℕ
  importer : ℕ
  product : ℕ
  value : ℚ
  quantity : ℚ
deriving DecidableEq

/-- A row of `oak_df`: the name columns come from mapping the numeric codes
through the country-code table, `Option.none` standing for a pandas NaN
produced by a failed lookup. -/
structure TradeRecord where
  exporter_name : Option Country
  importer_name : Option Country
  quantity : ℚ
  value : ℚ
deriving DecidableEq

/-- `country_codes.set_index("country_code")["country_name"]` used as a
lookup: the name attached to a numeric code, none if the code is absent. -/
def lookupName (table : List (ℕ × Country)) (code : ℕ) : Option Country :=
  (table.find? (fun p => decide (p.1 = code))).map (·.2)

/-- `BaciDataset.oak_df`: keep only product 440791 and attach
`exporter_name` / `importer_name` via the code-to-name lookup (a code
absent from the table yields a NaN name, modelled as none). -/
def oak_df (table : List (ℕ × Country)) (rows : List RawRecord) : List TradeRecord :=
  (rows.filter (fun r => decide (r.product = 440791))).map
    (fun r => ⟨lookupName table r.exporter, lookupName table r.importer,
               r.quantity, r.value⟩)

/-- The sorted list of distinct keys, as pandas groupby produces
(group keys sorted ascending, each once). -/
def sortedKeys (l : List Country) : List Country :=
  List.insertionSort keyLE l.dedup

/-- `df.groupby(key)["quantity"].sum()`: index = sorted distinct non-null
keys (pandas drops NaN keys), value = sum of `quantity` over the rows
with that key. -/
def groupbySum (records : List TradeRecord) (key : TradeRecord → Option Country) :
    List (Country × ℚ) :=
  (sortedKeys (records.filterMap key)).map
    (fun c => (c, ((records.filter (fun r => decide (key r = some c))).map
      (·.quantity)).sum))

/-- Value of a series at a key, 0 when the key is absent. -/
def getD0 (l : List (Country × ℚ)) (c : Country) : ℚ :=
  ((l.find? (fun p => decide (p.1 = c))).map (·.2)).getD 0

/-- `a.add(b, fill_value=0)`: index = sorted union of both indexes, each
side contributing 0 where its key is missing. -/
def addSeries (a b : List (Country × ℚ)) : List (Country × ℚ) :=
  (sortedKeys (a.map (·.1) ++ b.map (·.1))).map
    (fun c => (c, getD0 a c + getD0 b c))

/-- `Series.rank(ascending=False, method="first").astype("int64")`:
entry `i` gets rank 1 + (number of strictly larger values anywhere)
+ (number of equal values at positions before `i`). -/
def rankFirstDesc (l : List (Country × ℚ)) : List (Country × ℕ) :=
  l.enum.map (fun ip =>
    (ip.2.1,
      1 + (l.filter (fun q => decide (ip.2.2 < q.2))).length
        + ((l.take ip.1).filter (fun q => decide (q.2 = ip.2.2))).length))

/-- The rank `rankFirstDesc` assigns at position `i` to the value `v`:
1 + (strictly larger values anywhere) + (equal values before `i`). -/
def rankAt (l : List (Country × ℚ)) (i : ℕ) (v : ℚ) : ℕ :=
  1 + (l.filter (fun q => decide (v < q.2))).length
    + ((l.take i).filter (fun q => decide (q.2 = v))).length

/-- The `total` series of `BaciDataset.country_ranks`:
`exports.add(imports, fill_value=0)`. -/
def totalsList (records : List TradeRecord) : List (Country × ℚ) :=
  addSeries (groupbySum records (·.exporter_name))
            (groupbySum records (·.importer_name))

/-- The index of the `total` series: the sorted distinct countries
appearing (with a resolvable name) as exporter or importer. -/
def totalsKeys (records : List TradeRecord) : List Country :=
  sortedKeys ((groupbySum records (·.exporter_name)).map (·.1)
    ++ (groupbySum records (·.importer_name)).map (·.1))

/-- `BaciDataset.country_ranks`: totals = exports.add(imports,
fill_value=0) grouped by name, ranked descending with method "first",
then `sort_values(ascending=True)` on the (distinct) ranks. -/
def country_ranks (records : List TradeRecord) : List (Country × ℕ) :=
  List.insertionSort (fun a b => a.2 ≤ b.2) (rankFirstDesc (totalsList records))

/-- `baci.country_ranks.index.tolist()`: the countries in rank order,
rank 1 first. -/
def countries_ordered (records : List TradeRecord) : List Country :=
  (country_ranks records).map (·.1)

/-- The aggregated cell value for one (importer, exporter) pair: the sum
of `quantity` over the records carrying exactly those two names.  This is
what `pivot_table(..., aggfunc="sum", fill_value=0)` puts into a cell, a
pair with no record yielding the fill value 0. -/
def pairSum (records : List TradeRecord) (imp exp : Country) : ℚ :=
  ((records.filter (fun r =>
      decide (r.importer_name = some imp ∧ r.exporter_name = some exp))).map
    (·.quantity)).sum

/-- `StreamlitHeatmap.full_matrix`: the full pivot matrix, rows = importer
names and columns = exporter names, both reindexed to the rank-ordered
country list, absent rows, columns and pairs filled with 0. -/
def full_matrix (records : List TradeRecord) : List (List ℚ) :=
  (countries_ordered records).map (fun imp =>
    (countries_ordered records).map (fun exp => pairSum records imp exp))

/-- `StreamlitHeatmap.slice_for_n`: `(countries[:n], countries[:n],
full_matrix.loc[countries[:n], countries[:n]])`; because the selected
labels are the first `n` entries of the matrix index in order, the label
selection is the first `n` rows and columns. -/
def slice_for_n (records : List TradeRecord) (n : ℕ) :
    List Country × List Country × List (List ℚ) :=
  ((countries_ordered records).take n, (countries_ordered records).take n,
    ((full_matrix records).take n).map (fun row => row.take n))

/-- `BokehServerHeatmap.create_heatmap_data` (and the identical pivot in
`StreamlitHeatmap.create_heatmap_figure` of oak_trade_agent): keep the
pair-aggregated rows whose exporter and importer are both among the first
`top_n` countries, pivot, and reindex both axes to the countries of the
sorted list that are present among the filtered rows.  The source's
`sorted_countries` (totals sorted descending) is modelled by the shared
rank order `countries_ordered`, which both strategies under comparison
use.  Returns (exporter_names, importer_names, matrix rows indexed by
importer). -/
def create_heatmap_data (records : List TradeRecord) (top_n : ℕ) :
    List Country × List Country × List (List ℚ) :=
  let sorted := countries_ordered records
  let top := sorted.take top_n
  let filtered := records.filter (fun r =>
      decide (r.exporter_name ∈ top.map some ∧ r.importer_name ∈ top.map some))
  let exps := sorted.filter (fun c =>
      filtered.any (fun r => decide (r.exporter_name = some c)))
  let imps := sorted.filter (fun c =>
      filtered.any (fun r => decide (r.importer_name = some c)))
  (exps, imps, imps.map (fun i => exps.map (fun e => pairSum records i e)))

/-- The spec formula for a country's total: export quantity plus import
quantity, a side with no record contributing 0. -/
def totalQuantity (records : List TradeRecord) (c : Country) : ℚ :=
  ((records.filter (fun r => decide (r.exporter_name = some c))).map (·.quantity)).sum
    + ((records.filter (fun r => decide (r.importer_name = some c))).map (·.quantity)).sum

/-- The country appears in the records, as exporter or importer. -/
def appearsIn (records : List TradeRecord) (c : Country) : Prop :=
  (∃ r ∈ records, r.exporter_name = some c) ∨ (∃ r ∈ records, r.importer_name = some c)

instance (records : List TradeRecord) (c : Country) : Decidable (appearsIn records c) := by
  unfold appearsIn; infer_instance

/-! ### Embedding of `src/common.py` (`split_thousands`)

Python values reaching `split_thousands` are modelled by `PyVal`; floats by
`PyFloat` with finite values as rationals (binary-float rounding is not
modelled, no claim depends on it).  `bool` is its own constructor: the source
excludes bools from the int branch via `not isinstance(value, bool)`, and a
bool then falls to the numeric-conversion fallback `float(value)`. -/

/-- A Python float: NaN, signed infinity, or a finite value. -/
inductive PyFloat where
  | nan : PyFloat
  | inf : Bool → PyFloat
  | finite : ℚ → PyFloat
deriving DecidableEq

/-- The kinds of values `split_thousands` is called with. -/
inductive PyVal where
  | none : PyVal
  | int : ℤ → PyVal
  | bool : Bool → PyVal
  | float : PyFloat → PyVal
  | str : String → PyVal
deriving DecidableEq

/-- The characters Python's `str.isspace()` — and hence `str.strip()` and
the whitespace step of `float(str)` — treats as whitespace: tab through
carriage return (9-13), the separators FS/GS/RS/US and the space (28-32),
NEL (133), no-break space (160), Ogham space mark (5760), the U+2000 block
spaces (8192-8202), line and paragraph separators (8232, 8233), narrow
no-break space (8239), medium mathematical space (8287) and the
ideographic space (12288). -/
def isPySpace (c : Char) : Bool :=
  decide ((9 ≤ c.toNat ∧ c.toNat ≤ 13) ∨ (28 ≤ c.toNat ∧ c.toNat ≤ 32)
    ∨ c.toNat = 133 ∨ c.toNat = 160 ∨ c.toNat = 5760
    ∨ (8192 ≤ c.toNat ∧ c.toNat ≤ 8202) ∨ c.toNat = 8232 ∨ c.toNat = 8233
    ∨ c.toNat = 8239 ∨ c.toNat = 8287 ∨ c.toNat = 12288)

/-- `s.strip()`: remove leading and trailing whitespace. -/
def pyStrip (s : String) : String :=
  String.mk (((s.data.dropWhile isPySpace).reverse.dropWhile isPySpace).reverse)

/-- Lower-case an ASCII letter (Python float parsing is case-insensitive). -/
def lowerAscii (c : Char) : Char :=
  if 65 ≤ c.toNat ∧ c.toNat ≤ 90 then Char.ofNat (c.toNat + 32) else c

/-- First code points of the contiguous 0-9 runs of Unicode decimal digits
(category Nd, Unicode 15.0): ASCII, Arabic-Indic, Extended Arabic-Indic,
NKo, the Indic scripts, Thai, Lao, Tibetan, Myanmar, Khmer, Mongolian and
the other BMP scripts, fullwidth digits, and the supplementary-plane
scripts including the mathematical digit styles.  Every Nd run is ten
consecutive code points valued 0-9. -/
def ndRangeStarts : List ℕ :=
  [0x30, 0x660, 0x6F0, 0x7C0, 0x966, 0x9E6, 0xA66, 0xAE6, 0xB66, 0xBE6,
   0xC66, 0xCE6, 0xD66, 0xDE6, 0xE50, 0xED0, 0xF20, 0x1040, 0x1090, 0x17E0,
   0x1810, 0x1946, 0x19D0, 0x1A80, 0x1A90, 0x1B50, 0x1BB0, 0x1C40, 0x1C50,
   0xA620, 0xA8D0, 0xA900, 0xA9D0, 0xA9F0, 0xAA50, 0xABF0, 0xFF10,
   0x104A0, 0x10D30, 0x11066, 0x110F0, 0x11136, 0x111D0, 0x112F0, 0x11450,
   0x114D0, 0x11650, 0x116C0, 0x11730, 0x118E0, 0x11950, 0x11C50, 0x11D50,
   0x11DA0, 0x11F50, 0x16A60, 0x16AC0, 0x16B50, 0x1D7CE, 0x1D7D8, 0x1D7E2,
   0x1D7EC, 0x1D7F6, 0x1E140, 0x1E2F0, 0x1E4F0, 0x1E950, 0x1FBF0]

/-- The decimal value of a Unicode decimal digit (category Nd), none for
any other character: what CPython's `Py_UNICODE_TODECIMAL` returns when it
maps digits of any script to their values inside `float(str)`. -/
def decDigit? (c : Char) : Option ℕ :=
  (ndRangeStarts.find? (fun s => decide (s ≤ c.toNat ∧ c.toNat ≤ s + 9))).map
    (fun s => c.toNat - s)

/-- One character of CPython's `_PyUnicode_TransformDecimalAndSpaceToASCII`,
which `float(str)` applies before its ASCII parser: a decimal digit of any
script becomes the ASCII digit of the same value, a whitespace character
becomes an ASCII space, any other non-ASCII character becomes `?` (which
the ASCII parser then rejects), and ASCII characters pass through. -/
def toAsciiDigit (c : Char) : Char :=
  match decDigit? c with
  | some d => Char.ofNat (48 + d)
  | Option.none => if isPySpace c then ' ' else if c.toNat < 128 then c else Char.ofNat 63

/-- Consume a leading run of decimal digits in which a single underscore may
stand between two digits (the Python numeric-literal digit-group rule used by
`float(str)`).  Returns the digits (underscores removed) and the unconsumed
remainder.  Fuel-structured so the kernel can evaluate it; fuel
`length of the input` always suffices since every step consumes a character. -/
def takeDigitsU : ℕ → List Char → List Char × List Char
  | 0, cs => ([], cs)
  | _ + 1, [] => ([], [])
  | fuel + 1, c :: rest =>
    if c.isDigit then
      match rest with
      | '_' :: d :: rest2 =>
        if d.isDigit then
          let p := takeDigitsU fuel (d :: rest2)
          (c :: p.1, p.2)
        else ([c], '_' :: d :: rest2)
      | '_' :: [] => ([c], ['_'])
      | _ =>
        let p := takeDigitsU fuel rest
        (c :: p.1, p.2)
    else ([], c :: rest)

/-- The natural number named by a big-endian digit list. -/
def digitsToNat (ds : List Char) : ℕ :=
  ds.foldl (fun acc c => 10 * acc + (c.toNat - 48)) 0

/-- Parse the optional exponent tail of a float literal: empty, or `e`
followed by an optional sign and a non-empty digit run that must exhaust
the input. -/
def parseExp (cs : List Char) : Option ℤ :=
  match cs with
  | [] => some 0
  | 'e' :: rest =>
    let sr : Bool × List Char :=
      match rest with
      | '+' :: t => (false, t)
      | '-' :: t => (true, t)
      | t => (false, t)
    let p := takeDigitsU sr.2.length sr.2
    if p.1 ≠ [] ∧ p.2 = [] then
      some (if sr.1 then -(digitsToNat p.1 : ℤ) else (digitsToNat p.1 : ℤ))
    else Option.none
  | _ => Option.none

/-- Parse an unsigned float literal `digits [. digits] [exponent]` with at
least one mantissa digit, as a rational. -/
def parseUnsigned (cs : List Char) : Option ℚ :=
  let ip := takeDigitsU cs.length cs
  let fr : List Char × List Char :=
    match ip.2 with
    | '.' :: rest => takeDigitsU rest.length rest
    | _ => ([], ip.2)
  if ip.1 = [] ∧ fr.1 = [] then Option.none
  else
    match parseExp fr.2 with
    | some e =>
      some (((digitsToNat ip.1 * 10 ^ fr.1.length + digitsToNat fr.1 : ℕ) : ℚ)
              / (10 : ℚ) ^ fr.1.length * (10 : ℚ) ^ e)
    | Option.none => Option.none

/-- Python `float(s)` applied to an already stripped string: first the
decimal-and-space-to-ASCII transform (so digits of any script are read at
their values), then, case-insensitively, an optional sign followed by
`inf`, `infinity`, `nan`, or a number literal. -/
def parseFloat (s : String) : Option PyFloat :=
  let cs := (s.data.map toAsciiDigit).map lowerAscii
  let sb : Bool × List Char :=
    match cs with
    | '+' :: t => (false, t)
    | '-' :: t => (true, t)
    | t => (false, t)
  if sb.2 = ['i', 'n', 'f'] ∨ sb.2 = ['i', 'n', 'f', 'i', 'n', 'i', 't', 'y'] then
    some (.inf sb.1)
  else if sb.2 = ['n', 'a', 'n'] then some .nan
  else
    match parseUnsigned sb.2 with
    | some q => some (.finite (if sb.1 then -q else q))
    | Option.none => Option.none

/-- The apostrophe character (written by code point to keep the sources
plain). -/
def apos : Char := Char.ofNat 39

/-- Little-endian decimal digits of a natural number.  Fuel-structured so the
kernel can evaluate it; fuel `n + 1` always suffices. -/
def natDigitsRevAux : ℕ → ℕ → List Char
  | 0, _ => []
  | fuel + 1, n =>
    if n < 10 then [Char.ofNat (48 + n)]
    else Char.ofNat (48 + n % 10) :: natDigitsRevAux fuel (n / 10)

/-- Little-endian decimal digits of a natural number. -/
def natDigitsRev (n : ℕ) : List Char := natDigitsRevAux (n + 1) n

/-- Insert `sep` after every third digit counting from the least significant
end (the effect of the `,` option of a Python format spec); the digit list is
little-endian, `k` counts the digits already emitted. -/
def groupRev (sep : Char) : List Char → ℕ → List Char
  | [], _ => []
  | c :: rest, k =>
    if k % 3 = 2 ∧ rest ≠ [] then c :: sep :: groupRev sep rest (k + 1)
    else c :: groupRev sep rest (k + 1)

/-- `f"{n:,}"` with the separator `sep`: sign, then comma-grouped decimal
digits of the absolute value. -/
def formatIntGrouped (sep : Char) (n : ℤ) : String :=
  (if n < 0 then "-" else "") ++ String.mk ((groupRev sep (natDigitsRev n.natAbs) 0).reverse)

/-- `f"{value:,}".replace(",", "'")` of the int branch of
`split_thousands`. -/
def intApos (n : ℤ) : String := formatIntGrouped apos n

/-- The non-integer finite-float branch: `"{:,.Df}".format(value)` followed
by `rstrip("0").rstrip(".")` (when `decimals > 0`) and the apostrophe
replacement.  Decimal rounding of the binary double is modelled as rounding
half away from the axis on the rational value. -/
def ratApos (q : ℚ) (decimals : ℕ) : String :=
  let a := |q|
  let scaled : ℤ := ⌊a * (10 : ℚ) ^ decimals + 1 / 2⌋
  let ipart := scaled.toNat / 10 ^ decimals
  let fpart := scaled.toNat % 10 ^ decimals
  let fracDigits :=
    (List.range decimals).map (fun i => Char.ofNat (48 + fpart / 10 ^ (decimals - 1 - i) % 10))
  let out := (if q < 0 then "-" else "")
    ++ String.mk ((groupRev apos (natDigitsRev ipart) 0).reverse)
  if decimals = 0 then out
  else
    let trimmed := (fracDigits.reverse.dropWhile (fun c => c = Char.ofNat 48)).reverse
    if trimmed = [] then out else out ++ "." ++ String.mk trimmed

/-- The float branch of `split_thousands`: `"0"` for NaN, `str(value)` for
infinities, the apostrophe-grouped int format when `value.is_integer()`,
otherwise the trimmed `decimals`-place format. -/
def splitFloat (f : PyFloat) (decimals : ℕ) : String :=
  match f with
  | .nan => "0"
  | .inf neg => if neg then "-inf" else "inf"
  | .finite q => if q.den = 1 then intApos q.num else ratApos q decimals

/-- `common.split_thousands(value, decimals)`, branch for branch:
`None -> "0"`; a string is stripped, the empty result yields `"0"`, a
parseable one continues as the parsed float, an unparseable one is returned
unchanged (the original, unstripped string); an int (bools excluded) is
comma-grouped with apostrophes; a float goes to the float branch; a bool
falls to the fallback `float(value)` (`True -> 1.0`, `False -> 0.0`). -/
def split_thousands (value : PyVal) (decimals : ℕ := 2) : String :=
  match value with
  | .none => "0"
  | .str s =>
    if pyStrip s = "" then "0"
    else
      match parseFloat (pyStrip s) with
      | some f => splitFloat f decimals
      | Option.none => s
  | .int n => intApos n
  | .float f => splitFloat f decimals
  | .bool b => splitFloat (.finite (if b then 1 else 0)) decimals

/-- Shorthand for building a fully named record. -/
def mkRec (e i : Country) (q : ℚ) : TradeRecord := ⟨some e, some i, q, 0⟩

/-! ### Order facts about the name comparison -/

theorem charsLt_irrefl (l : List Char) : charsLt l l = false := by
  induction l with
  | nil => rfl
  | cons a as ih => simp only [charsLt, if_neg (lt_irrefl a), ih]

theorem charsLt_asymm {a b : List Char} (h : charsLt a b = true) : charsLt b a = false := by
  induction a generalizing b with
  | nil =>
    cases b with
    | nil => simp [charsLt] at h
    | cons y ys => simp [charsLt]
  | cons x xs ih =>
    cases b with
    | nil => simp [charsLt] at h
    | cons y ys =>
      by_cases hxy : x < y
      · simp [charsLt, asymm hxy, hxy]
      · by_cases hyx : y < x
        · simp [charsLt, hxy, hyx] at h
        · simp only [charsLt, if_neg hxy, if_neg hyx] at h
          simp only [charsLt, if_neg hyx, if_neg hxy]
          exact ih h

theorem charsLt_trans {a b c : List Char} (h1 : charsLt a b = true)
    (h2 : charsLt b c = true) : charsLt a c = true := by
  induction a generalizing b c with
  | nil =>
    cases c with
    | nil =>
      cases b with
      | nil => simp [charsLt] at h1
      | cons y ys => simp [charsLt] at h2
    | cons z zs => simp [charsLt]
  | cons x xs ih =>
    cases b with
    | nil => simp [charsLt] at h1
    | cons y ys =>
      cases c with
      | nil => simp [charsLt] at h2
      | cons z zs =>
        rcases lt_trichotomy x y with hxy | hxy | hxy
        · rcases lt_trichotomy y z with hyz | hyz | hyz
          · simp [charsLt, lt_trans hxy hyz]
          · subst hyz; simp [charsLt, hxy]
          · simp [charsLt, asymm hyz, hyz] at h2
        · subst hxy
          simp only [charsLt, if_neg (lt_irrefl x)] at h1
          rcases lt_trichotomy x z with hxz | hxz | hxz
          · simp [charsLt, hxz]
          · subst hxz
            simp only [charsLt, if_neg (lt_irrefl x)] at h2 ⊢
            exact ih h1 h2
          · simp [charsLt, asymm hxz, hxz] at h2
        · simp [charsLt, asymm hxy, hxy] at h1

theorem charsLt_eq_of_false {a b : List Char} (h1 : charsLt a b = false)
    (h2 : charsLt b a = false) : a = b := by
  induction a generalizing b with
  | nil =>
    cases b with
    | nil => rfl
    | cons y ys => simp [charsLt] at h1
  | cons x xs ih =>
    cases b with
    | nil => simp [charsLt] at h2
    | cons y ys =>
      rcases lt_trichotomy x y with hxy | hxy | hxy
      · simp [charsLt, hxy] at h1
      · subst hxy
        simp only [charsLt, if_neg (lt_irrefl x)] at h1 h2
        rw [ih h1 h2]
      · simp [charsLt, hxy] at h2

theorem keyLT_of_keyLE_of_ne {a b : Country} (h : keyLE a b) (hne : a ≠ b) :
    keyLT a b := by
  unfold keyLE at h
  unfold keyLT
  cases hab : charsLt a.data b.data
  · exact absurd (String.ext (charsLt_eq_of_false hab h)) hne
  · rfl

instance : IsTotal Country keyLE :=
  ⟨fun a b => by
    unfold keyLE
    cases h : charsLt b.data a.data
    · exact Or.inl rfl
    · exact Or.inr (charsLt_asymm h)⟩

instance : IsTrans Country keyLE :=
  ⟨fun a b c hab hbc => by
    unfold keyLE at *
    cases hca : charsLt c.data a.data
    · rfl
    · cases hbc3 : charsLt b.data c.data
      · have he : c.data = b.data := charsLt_eq_of_false hbc hbc3
        rw [he] at hca
        rw [hca] at hab
        exact hab
      · have ht := charsLt_trans hbc3 hca
        rw [ht] at hab
        exact hab⟩

instance : IsAntisymm Country keyLE :=
  ⟨fun _ _ hab hba => String.ext (charsLt_eq_of_false hba hab)⟩

theorem sortedKeys_sorted (l : List Country) : (sortedKeys l).Sorted keyLE :=
  List.sorted_insertionSort keyLE l.dedup

theorem sortedKeys_perm_dedup (l : List Country) : List.Perm (sortedKeys l) l.dedup :=
  List.perm_insertionSort keyLE l.dedup

theorem sortedKeys_nodup (l : List Country) : (sortedKeys l).Nodup :=
  (sortedKeys_perm_dedup l).nodup_iff.mpr l.nodup_dedup

theorem mem_sortedKeys {l : List Country} {c : Country} : c ∈ sortedKeys l ↔ c ∈ l := by
  rw [(sortedKeys_perm_dedup l).mem_iff, List.mem_dedup]

theorem sortedKeys_sorted_lt (l : List Country) : (sortedKeys l).Sorted keyLT :=
  ((sortedKeys_sorted l).and (sortedKeys_nodup l)).imp
    (fun h => keyLT_of_keyLE_of_ne h.1 h.2)

theorem sortedKeys_eq_of_mem_iff {l1 l2 : List Country} (h : ∀ c, c ∈ l1 ↔ c ∈ l2) :
    sortedKeys l1 = sortedKeys l2 := by
  apply List.eq_of_perm_of_sorted ?_ (sortedKeys_sorted l1) (sortedKeys_sorted l2)
  apply (List.perm_ext_iff_of_nodup (sortedKeys_nodup l1) (sortedKeys_nodup l2)).mpr
  intro c
  rw [mem_sortedKeys, mem_sortedKeys]
  exact h c

/-! ### Series lemmas: groupby, aligned addition, totals -/

theorem find?_keyed {ks : List Country} {f : Country → ℚ} {c : Country} (h : c ∈ ks) :
    (ks.map (fun k => (k, f k))).find? (fun p => decide (p.1 = c)) = some (c, f c) := by
  induction ks with
  | nil => cases h
  | cons k ks ih =>
    by_cases hk : k = c
    · subst hk
      rw [List.map_cons, List.find?_cons_of_pos _ (by simp)]
    · rcases List.mem_cons.mp h with h1 | h2
      · exact absurd h1.symm hk
      · rw [List.map_cons, List.find?_cons_of_neg _ (by simp [hk]), ih h2]

theorem getD0_groupbySum (records : List TradeRecord) (key : TradeRecord → Option Country)
    (c : Country) :
    getD0 (groupbySum records key) c
      = ((records.filter (fun r => decide (key r = some c))).map (·.quantity)).sum := by
  unfold getD0 groupbySum
  by_cases h : c ∈ sortedKeys (records.filterMap key)
  · rw [find?_keyed h]
    rfl
  · rw [List.find?_eq_none.mpr ?_]
    · have hfil : records.filter (fun r => decide (key r = some c)) = [] := by
        rw [List.filter_eq_nil_iff]
        intro r hr
        simp only [decide_eq_true_eq]
        intro hkey
        exact h (mem_sortedKeys.mpr (List.mem_filterMap.mpr ⟨r, hr, hkey⟩))
      rw [hfil]
      rfl
    · intro p hp
      rcases List.mem_map.mp hp with ⟨k, hk, rfl⟩
      simp only [decide_eq_true_eq]
      intro hkc
      exact h (hkc ▸ hk)

theorem map_fst_keyed (ks : List Country) (f : Country → ℚ) :
    (ks.map (fun k => (k, f k))).map (fun p => p.1) = ks := by
  induction ks with
  | nil => rfl
  | cons k ks ih => simp [ih]

theorem groupbySum_keys (records : List TradeRecord) (key : TradeRecord → Option Country) :
    (groupbySum records key).map (·.1) = sortedKeys (records.filterMap key) := by
  unfold groupbySum
  exact map_fst_keyed _ _

theorem totalsList_eq (records : List TradeRecord) :
    totalsList records
      = (totalsKeys records).map (fun c => (c, totalQuantity records c)) := by
  unfold totalsList addSeries totalsKeys
  apply List.map_congr_left
  intro c _
  rw [getD0_groupbySum, getD0_groupbySum]
  rfl

theorem totalsKeys_nodup (records : List TradeRecord) : (totalsKeys records).Nodup :=
  sortedKeys_nodup _

theorem totalsKeys_sorted_lt (records : List TradeRecord) :
    (totalsKeys records).Sorted keyLT :=
  sortedKeys_sorted_lt _

theorem mem_totalsKeys {records : List TradeRecord} {c : Country} :
    c ∈ totalsKeys records ↔ appearsIn records c := by
  unfold totalsKeys appearsIn
  rw [mem_sortedKeys, List.mem_append, groupbySum_keys, groupbySum_keys,
    mem_sortedKeys, mem_sortedKeys]
  simp only [List.mem_filterMap]

theorem totalQuantity_eq_zero_of_not_appears {records : List TradeRecord} {c : Country}
    (h : ¬ appearsIn records c) : totalQuantity records c = 0 := by
  unfold appearsIn at h
  push_neg at h
  unfold totalQuantity
  rw [List.filter_eq_nil_iff.mpr ?_, List.filter_eq_nil_iff.mpr ?_]
  · simp
  · intro r hr
    simp only [decide_eq_true_eq]
    exact fun hc => h.2 r hr hc
  · intro r hr
    simp only [decide_eq_true_eq]
    exact fun hc => h.1 r hr hc

/-! ### Counting helpers for the rank formula -/

theorem countP_or_disjoint {α : Type} (l : List α) (p q : α → Bool)
    (h : ∀ x ∈ l, ¬(p x = true ∧ q x = true)) :
    l.countP (fun x => p x || q x) = l.countP p + l.countP q := by
  induction l with
  | nil => rfl
  | cons a l ih =>
    rw [List.countP_cons, List.countP_cons, List.countP_cons,
      ih (fun x hx => h x (List.mem_cons_of_mem a hx))]
    cases hp : p a <;> cases hq : q a
    · simp [hp, hq]
    · (simp [hp, hq]; omega)
    · (simp [hp, hq]; omega)
    · exact absurd ⟨hp, hq⟩ (h a (List.mem_cons_self a l))

theorem countP_add_countP_le_length {α : Type} (l : List α) (p q : α → Bool)
    (h : ∀ x ∈ l, ¬(p x = true ∧ q x = true)) :
    l.countP p + l.countP q ≤ l.length := by
  rw [← countP_or_disjoint l p q h]
  exact List.countP_le_length _

theorem countP_take_succ_le {α : Type} (l : List α) (p : α → Bool) {i j : ℕ}
    (hij : i < j) (hi : i < l.length) (hp : p (l.get ⟨i, hi⟩) = true) :
    (l.take i).countP p + 1 ≤ (l.take j).countP p := by
  have h1 : l.take j = l.take i ++ (l.take j).drop i := by
    conv_lhs => rw [← List.take_append_drop i (l.take j)]
    rw [List.take_take, Nat.min_eq_left (Nat.le_of_lt hij)]
  have hilen : i < (l.take j).length := by
    rw [List.length_take]
    exact Nat.lt_min.mpr ⟨hij, hi⟩
  rw [h1, List.countP_append, List.drop_eq_getElem_cons hilen, List.countP_cons]
  have hhead : p ((l.take j)[i]) = true := by
    have he : (l.take j)[i] = l.get ⟨i, hi⟩ := by
      simp [List.getElem_take, List.get_eq_getElem]
    rw [he]
    exact hp
  rw [hhead]
  simp

theorem countP_pos_of_getElem {α : Type} (l : List α) (p : α → Bool) {i : ℕ}
    (hi : i < l.length) (hp : p (l.get ⟨i, hi⟩) = true) :
    (l.take i).countP p + 1 ≤ l.countP p := by
  have h := countP_take_succ_le l p hi hi hp
  rwa [List.take_length] at h

theorem rankAt_lt_of_val_gt {l : List (Country × ℚ)} {i j : ℕ}
    (hi : i < l.length) (hj : j < l.length)
    (hv : (l.get ⟨j, hj⟩).2 < (l.get ⟨i, hi⟩).2) :
    rankAt l i (l.get ⟨i, hi⟩).2 < rankAt l j (l.get ⟨j, hj⟩).2 := by
  unfold rankAt
  simp only [← List.countP_eq_length_filter]
  have hsplit := countP_pos_of_getElem l
    (fun q => decide (q.2 = (l.get ⟨i, hi⟩).2)) hi (by simp)
  have hor : l.countP (fun q => decide ((l.get ⟨i, hi⟩).2 < q.2)
        || decide (q.2 = (l.get ⟨i, hi⟩).2))
      = l.countP (fun q => decide ((l.get ⟨i, hi⟩).2 < q.2))
        + l.countP (fun q => decide (q.2 = (l.get ⟨i, hi⟩).2)) := by
    apply countP_or_disjoint
    intro q _ hq
    rcases hq with ⟨h1, h2⟩
    simp only [decide_eq_true_eq] at h1 h2
    exact absurd (h2 ▸ h1) (lt_irrefl (l.get ⟨i, hi⟩).2)
  have hmono : l.countP (fun q => decide ((l.get ⟨i, hi⟩).2 < q.2)
        || decide (q.2 = (l.get ⟨i, hi⟩).2))
      ≤ l.countP (fun q => decide ((l.get ⟨j, hj⟩).2 < q.2)) := by
    apply List.countP_mono_left
    intro q _ hq
    simp only [Bool.or_eq_true, decide_eq_true_eq] at hq
    simp only [decide_eq_true_eq]
    rcases hq with h1 | h2
    · exact lt_trans hv h1
    · exact h2 ▸ hv
  omega

theorem rankAt_lt_of_val_eq {l : List (Country × ℚ)} {i j : ℕ}
    (hi : i < l.length) (hj : j < l.length) (hij : i < j)
    (hv : (l.get ⟨i, hi⟩).2 = (l.get ⟨j, hj⟩).2) :
    rankAt l i (l.get ⟨i, hi⟩).2 < rankAt l j (l.get ⟨j, hj⟩).2 := by
  unfold rankAt
  rw [hv]
  simp only [← List.countP_eq_length_filter]
  have hkey : (l.take i).countP (fun q => decide (q.2 = (l.get ⟨j, hj⟩).2)) + 1
      ≤ (l.take j).countP (fun q => decide (q.2 = (l.get ⟨j, hj⟩).2)) := by
    apply countP_take_succ_le l _ hij hi
    simpa using hv
  omega

/-- The rank `rankFirstDesc` gives to a value appended at the end of the
series. -/
theorem rank_new_eq (l : List (Country × ℚ)) (a : Country × ℚ) :
    rankAt (l ++ [a]) l.length a.2
      = 1 + l.countP (fun q => decide (a.2 < q.2))
          + l.countP (fun q => decide (q.2 = a.2)) := by
  unfold rankAt
  rw [List.take_append_of_le_length (le_refl _), List.take_length, List.filter_append]
  simp [← List.countP_eq_length_filter, lt_irrefl]

/-- An entry of the old series gets bumped by an appended value exactly when
its old rank is at least the new value's rank. -/
theorem rank_le_iff_bump (l : List (Country × ℚ)) (a : Country × ℚ) {i : ℕ}
    (hi : i < l.length) :
    ((l.get ⟨i, hi⟩).2 < a.2
      ↔ rankAt (l ++ [a]) l.length a.2 ≤ rankAt l i (l.get ⟨i, hi⟩).2) := by
  set v := (l.get ⟨i, hi⟩).2 with hv
  rw [rank_new_eq]
  have hsplit : (l.take i).countP (fun q => decide (q.2 = v)) + 1
      ≤ l.countP (fun q => decide (q.2 = v)) :=
    countP_pos_of_getElem l (fun q => decide (q.2 = v)) hi (by simp [hv])
  constructor
  · intro h
    have hor : l.countP (fun q => decide (a.2 < q.2) || decide (q.2 = a.2))
        = l.countP (fun q => decide (a.2 < q.2)) + l.countP (fun q => decide (q.2 = a.2)) := by
      apply countP_or_disjoint
      intro q _ hq
      rcases hq with ⟨h1, h2⟩
      simp only [decide_eq_true_eq] at h1 h2
      exact absurd (h2 ▸ h1) (lt_irrefl a.2)
    have hmono : l.countP (fun q => decide (a.2 < q.2) || decide (q.2 = a.2))
        ≤ l.countP (fun q => decide (v < q.2)) := by
      apply List.countP_mono_left
      intro q _ hq
      simp only [Bool.or_eq_true, decide_eq_true_eq] at hq
      simp only [decide_eq_true_eq]
      rcases hq with h1 | h2
      · exact lt_trans h h1
      · exact h2 ▸ h
    unfold rankAt
    simp only [← List.countP_eq_length_filter]
    omega
  · intro h
    by_contra hn
    rcases eq_or_lt_of_le (not_lt.mp hn) with he | hgt
    · -- a.2 = v: the old rank is strictly below the appended rank
      unfold rankAt at h
      simp only [← List.countP_eq_length_filter] at h
      rw [he] at h
      omega
    · -- a.2 < v: every counted entry for the old rank also counts for the
      -- appended rank, plus the entry itself
      have hor : l.countP (fun q => decide (v < q.2) || decide (q.2 = v))
          = l.countP (fun q => decide (v < q.2)) + l.countP (fun q => decide (q.2 = v)) := by
        apply countP_or_disjoint
        intro q _ hq
        rcases hq with ⟨h1, h2⟩
        simp only [decide_eq_true_eq] at h1 h2
        exact absurd (h2 ▸ h1) (lt_irrefl v)
      have hmono : l.countP (fun q => decide (v < q.2) || decide (q.2 = v))
          ≤ l.countP (fun q => decide (a.2 < q.2)) := by
        apply List.countP_mono_left
        intro q _ hq
        simp only [Bool.or_eq_true, decide_eq_true_eq] at hq
        simp only [decide_eq_true_eq]
        rcases hq with h1 | h2
        · exact lt_trans hgt h1
        · exact h2 ▸ hgt
      unfold rankAt at h
      simp only [← List.countP_eq_length_filter] at h
      omega

theorem rankFirstDesc_length (l : List (Country × ℚ)) :
    (rankFirstDesc l).length = l.length := by
  simp [rankFirstDesc]

theorem rankFirstDesc_get (l : List (Country × ℚ)) {i : ℕ} (h : i < l.length) :
    (rankFirstDesc l).get ⟨i, by rw [rankFirstDesc_length]; exact h⟩
      = ((l.get ⟨i, h⟩).1, rankAt l i (l.get ⟨i, h⟩).2) := by
  unfold rankFirstDesc rankAt
  simp [List.get_eq_getElem, List.getElem_map, List.getElem_enum]

/-- The ranks of a series with one value appended: the old entries, each
bumped by one when its value is below the new value, then the new value's
rank. -/
theorem rankFirstDesc_ranks_append (l : List (Country × ℚ)) (a : Country × ℚ) :
    (rankFirstDesc (l ++ [a])).map (·.2)
      = (l.enum.map (fun ip =>
          rankAt l ip.1 ip.2.2 + (if ip.2.2 < a.2 then 1 else 0)))
        ++ [rankAt (l ++ [a]) l.length a.2] := by
  unfold rankFirstDesc
  rw [List.map_map]
  show (l ++ [a]).enum.map (fun ip => rankAt (l ++ [a]) ip.1 ip.2.2) = _
  rw [List.enum_append, List.map_append]
  congr 1
  apply List.map_congr_left
  intro ip hip
  rcases List.getElem?_eq_some_iff.mp (List.mem_enum_iff_getElem?.mp hip) with ⟨hilt, hi⟩
  unfold rankAt
  rw [List.take_append_of_le_length (Nat.le_of_lt hilt), List.filter_append]
  have hsing : ([a].filter (fun q => decide (ip.2.2 < q.2))).length
      = if ip.2.2 < a.2 then 1 else 0 := by
    by_cases hc : ip.2.2 < a.2 <;> simp [List.filter, hc]
  rw [List.length_append, hsing]
  omega

theorem shift_perm {R : List ℕ} {n t : ℕ} (hperm : List.Perm R (List.range' 1 n))
    (ht1 : 1 ≤ t) (ht2 : t ≤ n + 1) :
    List.Perm ((R.map (fun r => if t ≤ r then r + 1 else r)) ++ [t])
      (List.range' 1 (n + 1)) := by
  have hsplit : List.range' 1 n = List.range' 1 (t - 1) ++ List.range' t (n + 1 - t) := by
    have h := List.range'_append_1 1 (t - 1) (n + 1 - t)
    rw [show 1 + (t - 1) = t by omega] at h
    rw [show n + 1 - t + (t - 1) = n by omega] at h
    exact h.symm
  have hmapped : (List.range' 1 n).map (fun r => if t ≤ r then r + 1 else r)
      = List.range' 1 (t - 1) ++ List.range' (t + 1) (n + 1 - t) := by
    rw [hsplit, List.map_append]
    congr 1
    · have hid : ∀ r ∈ List.range' 1 (t - 1), (if t ≤ r then r + 1 else r) = r := by
        intro r hr
        rcases List.mem_range'_1.mp hr with ⟨_, hub⟩
        rw [if_neg (by omega)]
      rw [List.map_congr_left hid, List.map_id']
    · have hadd : ∀ r ∈ List.range' t (n + 1 - t), (if t ≤ r then r + 1 else r) = 1 + r := by
        intro r hr
        rcases List.mem_range'_1.mp hr with ⟨hlb, _⟩
        rw [if_pos hlb]
        omega
      rw [List.map_congr_left hadd, List.map_add_range']
      rw [Nat.add_comm 1 t]
  have hfin : List.range' 1 (n + 1)
      = List.range' 1 (t - 1) ++ ([t] ++ List.range' (t + 1) (n + 1 - t)) := by
    have h1 : [t] = List.range' t 1 := rfl
    rw [h1]
    rw [List.range'_append_1 t 1 (n + 1 - t)]
    have h2 := List.range'_append_1 1 (t - 1) (n + 1 - t + 1)
    rw [show 1 + (t - 1) = t by omega] at h2
    rw [show n + 1 - t + 1 + (t - 1) = n + 1 by omega] at h2
    exact h2.symm
  have hR : List.Perm (R.map (fun r => if t ≤ r then r + 1 else r))
      (List.range' 1 (t - 1) ++ List.range' (t + 1) (n + 1 - t)) :=
    hmapped ▸ hperm.map (fun r => if t ≤ r then r + 1 else r)
  refine List.Perm.trans (List.Perm.append_right [t] hR) ?_
  rw [hfin, List.append_assoc]
  exact List.Perm.append_left _ List.perm_append_comm

/-- The ranks that `rankFirstDesc` assigns are a permutation of
`1, ..., length`. -/
theorem rankFirstDesc_ranks_perm (l : List (Country × ℚ)) :
    List.Perm ((rankFirstDesc l).map (·.2)) (List.range' 1 l.length) := by
  induction l using List.reverseRecOn with
  | nil => simp [rankFirstDesc]
  | append_singleton l a ih =>
    rw [rankFirstDesc_ranks_append]
    have hcongr : l.enum.map (fun ip =>
          rankAt l ip.1 ip.2.2 + (if ip.2.2 < a.2 then 1 else 0))
        = ((rankFirstDesc l).map (·.2)).map
            (fun r => if rankAt (l ++ [a]) l.length a.2 ≤ r then r + 1 else r) := by
      unfold rankFirstDesc
      rw [List.map_map, List.map_map]
      apply List.map_congr_left
      intro ip hip
      rcases List.getElem?_eq_some_iff.mp (List.mem_enum_iff_getElem?.mp hip) with ⟨hilt, hi⟩
      show rankAt l ip.1 ip.2.2 + (if ip.2.2 < a.2 then 1 else 0)
        = if rankAt (l ++ [a]) l.length a.2 ≤ rankAt l ip.1 ip.2.2
          then rankAt l ip.1 ip.2.2 + 1 else rankAt l ip.1 ip.2.2
      have hiff := rank_le_iff_bump l a hilt
      have hi2 : l.get ⟨ip.1, hilt⟩ = ip.2 := hi
      rw [hi2] at hiff
      by_cases hc : ip.2.2 < a.2
      · rw [if_pos hc, if_pos (hiff.mp hc)]
      · rw [if_neg hc, if_neg (fun hle => hc (hiff.mpr hle))]
        rfl
    rw [hcongr]
    have ht1 : 1 ≤ rankAt (l ++ [a]) l.length a.2 := by
      rw [rank_new_eq]
      omega
    have ht2 : rankAt (l ++ [a]) l.length a.2 ≤ l.length + 1 := by
      rw [rank_new_eq]
      have hd := countP_add_countP_le_length l
        (fun q => decide (a.2 < q.2)) (fun q => decide (q.2 = a.2)) ?_
      · omega
      · intro q _ hq
        rcases hq with ⟨h1, h2⟩
        simp only [decide_eq_true_eq] at h1 h2
        exact absurd (h2 ▸ h1) (lt_irrefl a.2)
    have hlen : (l ++ [a]).length = l.length + 1 := by simp
    rw [hlen]
    exact shift_perm ih ht1 ht2

/-! ### Structure of `country_ranks` -/

theorem totalsList_length (records : List TradeRecord) :
    (totalsList records).length = (totalsKeys records).length := by
  rw [totalsList_eq, List.length_map]

instance : IsTotal (Country × ℕ) (fun a b => a.2 ≤ b.2) :=
  ⟨fun a b => Nat.le_total a.2 b.2⟩

instance : IsTrans (Country × ℕ) (fun a b => a.2 ≤ b.2) :=
  ⟨fun _ _ _ => Nat.le_trans⟩

theorem country_ranks_perm (records : List TradeRecord) :
    List.Perm (country_ranks records) (rankFirstDesc (totalsList records)) :=
  List.perm_insertionSort _ _

theorem country_ranks_sorted (records : List TradeRecord) :
    (country_ranks records).Sorted (fun a b => a.2 ≤ b.2) :=
  List.sorted_insertionSort _ _

theorem country_ranks_length (records : List TradeRecord) :
    (country_ranks records).length = (totalsKeys records).length := by
  rw [(country_ranks_perm records).length_eq, rankFirstDesc_length, totalsList_length]

/-- The ranks in `country_ranks` are, in order, exactly `1, ..., K` where
`K` is the number of distinct countries appearing in the records. -/
theorem country_ranks_snd_eq (records : List TradeRecord) :
    (country_ranks records).map (·.2) = List.range' 1 (totalsKeys records).length := by
  apply List.eq_of_perm_of_sorted (r := (· ≤ · : ℕ → ℕ → Prop))
  · refine ((country_ranks_perm records).map _).trans ?_
    rw [← totalsList_length]
    exact rankFirstDesc_ranks_perm _
  · exact List.Pairwise.map _ (fun _ _ h => h) (country_ranks_sorted records)
  · exact List.pairwise_le_range' 1 _ 1

theorem country_ranks_get_snd (records : List TradeRecord) {p : ℕ}
    (hp : p < (country_ranks records).length) :
    ((country_ranks records).get ⟨p, hp⟩).2 = p + 1 := by
  have hr : p < (List.range' 1 (totalsKeys records).length).length := by
    rw [List.length_range', ← country_ranks_length records]
    exact hp
  have hm : p < ((country_ranks records).map (·.2)).length := by
    rw [List.length_map]
    exact hp
  have h := congrArg (fun l => l.get? p) (country_ranks_snd_eq records)
  simp only [List.get?_eq_getElem?] at h
  rw [List.getElem?_eq_getElem hm, List.getElem?_eq_getElem hr] at h
  simp only [List.getElem_map, List.getElem_range', Option.some_inj] at h
  have hg : (country_ranks records).get ⟨p, hp⟩ = (country_ranks records)[p] := rfl
  rw [hg, h]
  omega

theorem enumFrom_map_snd_comp {α β : Type} (g : α → β) :
    ∀ (n : ℕ) (l : List α), (l.enumFrom n).map (fun ip => g ip.2) = l.map g
  | _, [] => rfl
  | n, a :: l => by
    simp only [List.enumFrom_cons, List.map_cons]
    rw [enumFrom_map_snd_comp g (n + 1) l]

theorem rankFirstDesc_map_fst (l : List (Country × ℚ)) :
    (rankFirstDesc l).map (·.1) = l.map (·.1) := by
  unfold rankFirstDesc
  rw [List.map_map]
  exact enumFrom_map_snd_comp (fun p => p.1) 0 l

theorem totalsList_map_fst (records : List TradeRecord) :
    (totalsList records).map (·.1) = totalsKeys records := by
  rw [totalsList_eq]
  exact map_fst_keyed _ _

theorem country_ranks_map_fst_perm (records : List TradeRecord) :
    List.Perm ((country_ranks records).map (·.1)) (totalsKeys records) := by
  refine ((country_ranks_perm records).map _).trans ?_
  rw [rankFirstDesc_map_fst, totalsList_map_fst]

theorem country_ranks_fst_nodup (records : List TradeRecord) :
    ((country_ranks records).map (·.1)).Nodup :=
  (country_ranks_map_fst_perm records).nodup_iff.mpr (totalsKeys_nodup records)

theorem mem_country_ranks_fst {records : List TradeRecord} {c : Country} :
    c ∈ (country_ranks records).map (·.1) ↔ appearsIn records c := by
  rw [(country_ranks_map_fst_perm records).mem_iff, mem_totalsKeys]

theorem totalsList_get (records : List TradeRecord) {i : ℕ}
    (hi : i < (totalsList records).length)
    (hk : i < (totalsKeys records).length) :
    (totalsList records).get ⟨i, hi⟩
      = ((totalsKeys records).get ⟨i, hk⟩,
          totalQuantity records ((totalsKeys records).get ⟨i, hk⟩)) := by
  simp [totalsList_eq, List.get_eq_getElem, List.getElem_map]

/-- Entries of `country_ranks` are ordered by total quantity descending,
ties broken by ascending country name. -/
theorem country_ranks_ordered (records : List TradeRecord) {p q : ℕ}
    (hp : p < (country_ranks records).length) (hq : q < (country_ranks records).length)
    (hpq : p < q) :
    totalQuantity records ((country_ranks records).get ⟨q, hq⟩).1
        < totalQuantity records ((country_ranks records).get ⟨p, hp⟩).1
      ∨ (totalQuantity records ((country_ranks records).get ⟨p, hp⟩).1
          = totalQuantity records ((country_ranks records).get ⟨q, hq⟩).1
        ∧ keyLT ((country_ranks records).get ⟨p, hp⟩).1
            ((country_ranks records).get ⟨q, hq⟩).1) := by
  obtain ⟨⟨i, hilen⟩, hie⟩ := List.mem_iff_get.mp
    ((country_ranks_perm records).mem_iff.mp
      (List.get_mem (country_ranks records) p hp))
  obtain ⟨⟨i', hilen'⟩, hie'⟩ := List.mem_iff_get.mp
    ((country_ranks_perm records).mem_iff.mp
      (List.get_mem (country_ranks records) q hq))
  have hiT : i < (totalsList records).length := by
    rw [← rankFirstDesc_length]; exact hilen
  have hiT' : i' < (totalsList records).length := by
    rw [← rankFirstDesc_length]; exact hilen'
  have hiK : i < (totalsKeys records).length := by
    rw [← totalsList_length]; exact hiT
  have hiK' : i' < (totalsKeys records).length := by
    rw [← totalsList_length]; exact hiT'
  rw [rankFirstDesc_get (totalsList records) hiT] at hie
  rw [rankFirstDesc_get (totalsList records) hiT'] at hie'
  have h1 : rankAt (totalsList records) i ((totalsList records).get ⟨i, hiT⟩).2
      = p + 1 := by
    have h0 : (((totalsList records).get ⟨i, hiT⟩).1,
        rankAt (totalsList records) i ((totalsList records).get ⟨i, hiT⟩).2).2
        = ((country_ranks records).get ⟨p, hp⟩).2 := congrArg Prod.snd hie
    rw [country_ranks_get_snd records hp] at h0
    exact h0
  have h2 : rankAt (totalsList records) i' ((totalsList records).get ⟨i', hiT'⟩).2
      = q + 1 := by
    have h0 : (((totalsList records).get ⟨i', hiT'⟩).1,
        rankAt (totalsList records) i' ((totalsList records).get ⟨i', hiT'⟩).2).2
        = ((country_ranks records).get ⟨q, hq⟩).2 := congrArg Prod.snd hie'
    rw [country_ranks_get_snd records hq] at h0
    exact h0
  have hrank : rankAt (totalsList records) i
      ((totalsList records).get ⟨i, hiT⟩).2
      < rankAt (totalsList records) i' ((totalsList records).get ⟨i', hiT'⟩).2 := by
    rw [h1, h2]
    omega
  have hTi := totalsList_get records hiT hiK
  have hTi' := totalsList_get records hiT' hiK'
  have hkey : ((country_ranks records).get ⟨p, hp⟩).1
      = (totalsKeys records).get ⟨i, hiK⟩ := by
    rw [← hie, hTi]
  have hkey' : ((country_ranks records).get ⟨q, hq⟩).1
      = (totalsKeys records).get ⟨i', hiK'⟩ := by
    rw [← hie', hTi']
  have hval : ((totalsList records).get ⟨i, hiT⟩).2
      = totalQuantity records ((totalsKeys records).get ⟨i, hiK⟩) := by
    rw [hTi]
  have hval' : ((totalsList records).get ⟨i', hiT'⟩).2
      = totalQuantity records ((totalsKeys records).get ⟨i', hiK'⟩) := by
    rw [hTi']
  rcases lt_trichotomy ((totalsList records).get ⟨i, hiT⟩).2
      ((totalsList records).get ⟨i', hiT'⟩).2 with hv | hv | hv
  · -- the value at i is smaller: then its rank would be larger, contradiction
    exact absurd (rankAt_lt_of_val_gt hiT' hiT hv) (Nat.lt_asymm hrank)
  · -- equal values: the indexes decide; i < i' gives the name tie-break
    have hii : i < i' := by
      rcases Nat.lt_trichotomy i i' with h | h | h
      · exact h
      · exfalso
        subst h
        exact Nat.lt_irrefl _ hrank
      · exact absurd (rankAt_lt_of_val_eq hiT' hiT h hv.symm) (Nat.lt_asymm hrank)
    right
    constructor
    · rw [hkey, hkey', ← hval, ← hval', hv]
    · rw [hkey, hkey']
      exact List.pairwise_iff_get.mp (totalsKeys_sorted_lt records)
        ⟨i, hiK⟩ ⟨i', hiK'⟩ hii
  · -- the value at i is larger: totals strictly decrease
    left
    rw [hkey, hkey', ← hval, ← hval']
    exact hv

/-! ### Matrix lemmas -/

theorem getD_of_lt {α : Type} (l : List α) (d : α) {i : ℕ} (h : i < l.length) :
    l.getD i d = l.get ⟨i, h⟩ := by
  rw [List.getD_eq_getElem?_getD, List.getElem?_eq_getElem h]
  rfl

theorem countries_ordered_length (records : List TradeRecord) :
    (countries_ordered records).length = (totalsKeys records).length := by
  rw [countries_ordered, List.length_map, country_ranks_length]

theorem countries_ordered_nodup (records : List TradeRecord) :
    (countries_ordered records).Nodup :=
  country_ranks_fst_nodup records

theorem mem_countries_ordered {records : List TradeRecord} {c : Country} :
    c ∈ countries_ordered records ↔ appearsIn records c :=
  mem_country_ranks_fst

theorem full_matrix_length (records : List TradeRecord) :
    (full_matrix records).length = (countries_ordered records).length :=
  List.length_map _ _

theorem full_matrix_row_length (records : List TradeRecord)
    {row : List ℚ} (h : row ∈ full_matrix records) :
    row.length = (countries_ordered records).length := by
  rcases List.mem_map.mp h with ⟨imp, _, rfl⟩
  exact List.length_map _ _

theorem slice_matrix_eq (records : List TradeRecord) (n : ℕ) :
    (slice_for_n records n).2.2
      = ((countries_ordered records).take n).map (fun imp =>
          ((countries_ordered records).take n).map (fun exp =>
            pairSum records imp exp)) := by
  show ((full_matrix records).take n).map (fun row => row.take n) = _
  unfold full_matrix
  rw [← List.map_take, List.map_map]
  apply List.map_congr_left
  intro imp _
  show ((countries_ordered records).map (fun exp => pairSum records imp exp)).take n = _
  rw [← List.map_take]

theorem slice_matrix_length (records : List TradeRecord) (n : ℕ) :
    (slice_for_n records n).2.2.length
      = min n (countries_ordered records).length := by
  rw [slice_matrix_eq, List.length_map, List.length_take]

theorem slice_row_length (records : List TradeRecord) (n : ℕ)
    {row : List ℚ} (h : row ∈ (slice_for_n records n).2.2) :
    row.length = min n (countries_ordered records).length := by
  rw [slice_matrix_eq] at h
  rcases List.mem_map.mp h with ⟨imp, _, rfl⟩
  rw [List.length_map, List.length_take]

theorem slice_cell (records : List TradeRecord) (n : ℕ) {i j : ℕ}
    (hi : i < n) (hj : j < n)
    (hin : i < (countries_ordered records).length)
    (hjn : j < (countries_ordered records).length) :
    ((slice_for_n records n).2.2.getD i []).getD j 0
      = pairSum records ((countries_ordered records).get ⟨i, hin⟩)
          ((countries_ordered records).get ⟨j, hjn⟩) := by
  have htake : i < ((countries_ordered records).take n).length := by
    rw [List.length_take]
    exact Nat.lt_min.mpr ⟨hi, hin⟩
  have htakej : j < ((countries_ordered records).take n).length := by
    rw [List.length_take]
    exact Nat.lt_min.mpr ⟨hj, hjn⟩
  rw [slice_matrix_eq]
  have hmrow : i < (((countries_ordered records).take n).map (fun imp =>
      ((countries_ordered records).take n).map (fun exp =>
        pairSum records imp exp))).length := by
    rw [List.length_map]
    exact htake
  rw [getD_of_lt _ _ hmrow]
  have hg1 : (((countries_ordered records).take n).map (fun imp =>
      ((countries_ordered records).take n).map (fun exp =>
        pairSum records imp exp))).get ⟨i, hmrow⟩
      = ((countries_ordered records).take n).map (fun exp =>
          pairSum records (((countries_ordered records).take n).get ⟨i, htake⟩) exp) := by
    simp only [List.get_eq_getElem, List.getElem_map]
  rw [hg1]
  have hcol : j < (((countries_ordered records).take n).map (fun exp =>
      pairSum records (((countries_ordered records).take n).get ⟨i, htake⟩) exp)).length := by
    rw [List.length_map]
    exact htakej
  rw [getD_of_lt _ _ hcol]
  have hg2 : (((countries_ordered records).take n).map (fun exp =>
      pairSum records (((countries_ordered records).take n).get ⟨i, htake⟩) exp)).get
        ⟨j, hcol⟩
      = pairSum records (((countries_ordered records).take n).get ⟨i, htake⟩)
          (((countries_ordered records).take n).get ⟨j, htakej⟩) := by
    simp only [List.get_eq_getElem, List.getElem_map]
  rw [hg2]
  have hti : ((countries_ordered records).take n).get ⟨i, htake⟩
      = (countries_ordered records).get ⟨i, hin⟩ := by
    simp only [List.get_eq_getElem, List.getElem_take]
  have htj : ((countries_ordered records).take n).get ⟨j, htakej⟩
      = (countries_ordered records).get ⟨j, hjn⟩ := by
    simp only [List.get_eq_getElem, List.getElem_take]
  rw [hti, htj]

theorem pairSum_eq_zero_of_no_record {records : List TradeRecord} {imp exp : Country}
    (h : ∀ r ∈ records, ¬(r.importer_name = some imp ∧ r.exporter_name = some exp)) :
    pairSum records imp exp = 0 := by
  unfold pairSum
  rw [List.filter_eq_nil_iff.mpr ?_]
  · rfl
  · intro r hr
    simp only [decide_eq_true_eq]
    exact h r hr

theorem pairSum_cons (r : TradeRecord) (rs : List TradeRecord) (imp exp : Country) :
    pairSum (r :: rs) imp exp
      = (if r.importer_name = some imp ∧ r.exporter_name = some exp
          then r.quantity else 0) + pairSum rs imp exp := by
  unfold pairSum
  rw [List.filter_cons]
  by_cases h : r.importer_name = some imp ∧ r.exporter_name = some exp
  · simp [h]
  · simp [h]

theorem sum_map_add (cs : List Country) (f g : Country → ℚ) :
    (cs.map (fun x => f x + g x)).sum = (cs.map f).sum + (cs.map g).sum := by
  induction cs with
  | nil => simp
  | cons k ks ih =>
    simp only [List.map_cons, List.sum_cons, ih]
    ring

theorem sum_ite_some (cs : List Country) (hnd : cs.Nodup) {o : Option Country}
    {c : Country} (ho : o = some c) (hc : c ∈ cs) (x : ℚ) :
    (cs.map (fun e => if o = some e then x else 0)).sum = x := by
  subst ho
  induction cs with
  | nil => cases hc
  | cons k ks ih =>
    rw [List.map_cons, List.sum_cons]
    by_cases hk : c = k
    · subst hk
      rw [if_pos rfl]
      have hnot : c ∉ ks := (List.nodup_cons.mp hnd).1
      have hzero : (ks.map (fun e => if some c = some e then x else (0 : ℚ))).sum = 0 := by
        have hall : ∀ e ∈ ks, (if some c = some e then x else (0 : ℚ)) = 0 := by
          intro e he
          rw [if_neg]
          intro hcontra
          injection hcontra with hce
          exact hnot (hce ▸ he)
        rw [List.map_congr_left hall]
        simp
      rw [hzero, add_zero]
    · rw [if_neg (fun hcontra => hk (by injection hcontra))]
      rw [ih (List.nodup_cons.mp hnd).2
        ((List.mem_cons.mp hc).resolve_left (fun h => hk h)), zero_add]

/-- The pivot conserves quantity: the sum of all cells over a duplicate-free
axis list containing every record's importer and exporter equals the sum of
all record quantities. -/
theorem matrix_total (cs : List Country) (hnd : cs.Nodup) (records : List TradeRecord)
    (H : ∀ r ∈ records, (∃ ci, r.importer_name = some ci ∧ ci ∈ cs)
          ∧ (∃ ce, r.exporter_name = some ce ∧ ce ∈ cs)) :
    (cs.map (fun imp => (cs.map (fun exp => pairSum records imp exp)).sum)).sum
      = (records.map (·.quantity)).sum := by
  induction records with
  | nil =>
    have hz : ∀ imp ∈ cs, (cs.map (fun exp => pairSum [] imp exp)).sum = (0 : ℚ) := by
      intro imp _
      have : ∀ exp ∈ cs, pairSum [] imp exp = (0 : ℚ) := by
        intro exp _
        rfl
      rw [List.map_congr_left this]
      simp
    rw [List.map_congr_left hz]
    simp
  | cons r rs ih =>
    obtain ⟨⟨ci, hci, hcimem⟩, ⟨ce, hce, hcemem⟩⟩ := H r (List.mem_cons_self r rs)
    have Hrs : ∀ x ∈ rs, (∃ ci, x.importer_name = some ci ∧ ci ∈ cs)
        ∧ (∃ ce, x.exporter_name = some ce ∧ ce ∈ cs) :=
      fun x hx => H x (List.mem_cons_of_mem r hx)
    have hrows : ∀ imp ∈ cs, (cs.map (fun exp => pairSum (r :: rs) imp exp)).sum
        = (cs.map (fun exp => if r.importer_name = some imp ∧ r.exporter_name = some exp
            then r.quantity else 0)).sum
          + (cs.map (fun exp => pairSum rs imp exp)).sum := by
      intro imp _
      rw [← sum_map_add]
      apply congrArg
      apply List.map_congr_left
      intro exp _
      exact pairSum_cons r rs imp exp
    rw [List.map_congr_left hrows, sum_map_add]
    have hinner : ∀ imp ∈ cs, (cs.map (fun exp =>
        if r.importer_name = some imp ∧ r.exporter_name = some exp
          then r.quantity else 0)).sum
        = if r.importer_name = some imp then r.quantity else 0 := by
      intro imp _
      by_cases him : r.importer_name = some imp
      · rw [if_pos him]
        have hsplit : ∀ exp ∈ cs, (if r.importer_name = some imp ∧ r.exporter_name = some exp
            then r.quantity else (0 : ℚ))
            = (if r.exporter_name = some exp then r.quantity else 0) := by
          intro exp _
          by_cases he : r.exporter_name = some exp
          · rw [if_pos ⟨him, he⟩, if_pos he]
          · rw [if_neg (fun hand => he hand.2), if_neg he]
        rw [List.map_congr_left hsplit]
        exact sum_ite_some cs hnd hce hcemem r.quantity
      · rw [if_neg him]
        have hz : ∀ exp ∈ cs, (if r.importer_name = some imp ∧ r.exporter_name = some exp
            then r.quantity else (0 : ℚ)) = 0 := by
          intro exp _
          rw [if_neg (fun hand => him hand.1)]
        rw [List.map_congr_left hz]
        simp
    rw [List.map_congr_left hinner, sum_ite_some cs hnd hci hcimem, ih Hrs]
    simp [List.map_cons, List.sum_cons]

/-! ### Lemmas about `create_heatmap_data`, clamping, and dropped rows -/

theorem filter_mem_of_prefix_part (ts ds : List Country) (hnd : (ts ++ ds).Nodup) :
    (ts ++ ds).filter (fun c => decide (c ∈ ts)) = ts := by
  rw [List.filter_append]
  have hdisj := (List.nodup_append.mp hnd).2.2
  have h1 : ts.filter (fun c => decide (c ∈ ts)) = ts := by
    rw [List.filter_eq_self.mpr]
    intro a ha
    simpa using ha
  have h2 : ds.filter (fun c => decide (c ∈ ts)) = [] := by
    rw [List.filter_eq_nil_iff]
    intro a ha
    simp only [decide_eq_true_eq]
    intro hmem
    exact hdisj hmem ha
  rw [h1, h2, List.append_nil]

theorem filter_mem_take (cs : List Country) (hnd : cs.Nodup) (n : ℕ) :
    cs.filter (fun c => decide (c ∈ cs.take n)) = cs.take n := by
  have h := filter_mem_of_prefix_part (cs.take n) (cs.drop n)
    (by rw [List.take_append_drop]; exact hnd)
  rw [List.take_append_drop] at h
  exact h

/-- When every one of the first `n` countries occurs among the filtered rows
both as exporter and as importer, the per-call filter-and-pivot build agrees
with slicing the precomputed full matrix. -/
theorem create_heatmap_data_eq_slice (records : List TradeRecord) (n : ℕ)
    (H : ∀ c ∈ (countries_ordered records).take n,
      ((records.filter (fun r =>
          decide (r.exporter_name ∈ ((countries_ordered records).take n).map some
            ∧ r.importer_name ∈ ((countries_ordered records).take n).map some))).any
        (fun r => decide (r.exporter_name = some c)) = true)
      ∧ ((records.filter (fun r =>
          decide (r.exporter_name ∈ ((countries_ordered records).take n).map some
            ∧ r.importer_name ∈ ((countries_ordered records).take n).map some))).any
        (fun r => decide (r.importer_name = some c)) = true)) :
    create_heatmap_data records n = slice_for_n records n := by
  have hE : (countries_ordered records).filter (fun c =>
      (records.filter (fun r =>
          decide (r.exporter_name ∈ ((countries_ordered records).take n).map some
            ∧ r.importer_name ∈ ((countries_ordered records).take n).map some))).any
        (fun r => decide (r.exporter_name = some c)))
      = (countries_ordered records).take n := by
    rw [List.filter_congr ?_, filter_mem_take _ (countries_ordered_nodup records) n]
    intro c _
    by_cases hct : c ∈ (countries_ordered records).take n
    · rw [(H c hct).1, (decide_eq_true hct).symm]
    · rw [decide_eq_false hct]
      cases hany : (records.filter (fun r =>
          decide (r.exporter_name ∈ ((countries_ordered records).take n).map some
            ∧ r.importer_name ∈ ((countries_ordered records).take n).map some))).any
        (fun r => decide (r.exporter_name = some c))
      · rfl
      · exfalso
        rcases List.any_eq_true.mp hany with ⟨r, hrmem, hrp⟩
        rcases List.mem_filter.mp hrmem with ⟨_, hrcond⟩
        simp only [decide_eq_true_eq] at hrp hrcond
        rcases hrcond with ⟨hexp, _⟩
        rw [hrp] at hexp
        rcases List.mem_map.mp hexp with ⟨x, hx, hxe⟩
        injection hxe with hxe2
        exact hct (hxe2 ▸ hx)
  have hI : (countries_ordered records).filter (fun c =>
      (records.filter (fun r =>
          decide (r.exporter_name ∈ ((countries_ordered records).take n).map some
            ∧ r.importer_name ∈ ((countries_ordered records).take n).map some))).any
        (fun r => decide (r.importer_name = some c)))
      = (countries_ordered records).take n := by
    rw [List.filter_congr ?_, filter_mem_take _ (countries_ordered_nodup records) n]
    intro c _
    by_cases hct : c ∈ (countries_ordered records).take n
    · rw [(H c hct).2, (decide_eq_true hct).symm]
    · rw [decide_eq_false hct]
      cases hany : (records.filter (fun r =>
          decide (r.exporter_name ∈ ((countries_ordered records).take n).map some
            ∧ r.importer_name ∈ ((countries_ordered records).take n).map some))).any
        (fun r => decide (r.importer_name = some c))
      · rfl
      · exfalso
        rcases List.any_eq_true.mp hany with ⟨r, hrmem, hrp⟩
        rcases List.mem_filter.mp hrmem with ⟨_, hrcond⟩
        simp only [decide_eq_true_eq] at hrp hrcond
        rcases hrcond with ⟨_, himp⟩
        rw [hrp] at himp
        rcases List.mem_map.mp himp with ⟨x, hx, hxe⟩
        injection hxe with hxe2
        exact hct (hxe2 ▸ hx)
  show ((countries_ordered records).filter (fun c =>
      (records.filter (fun r =>
          decide (r.exporter_name ∈ ((countries_ordered records).take n).map some
            ∧ r.importer_name ∈ ((countries_ordered records).take n).map some))).any
        (fun r => decide (r.exporter_name = some c))),
    (countries_ordered records).filter (fun c =>
      (records.filter (fun r =>
          decide (r.exporter_name ∈ ((countries_ordered records).take n).map some
            ∧ r.importer_name ∈ ((countries_ordered records).take n).map some))).any
        (fun r => decide (r.importer_name = some c))),
    ((countries_ordered records).filter (fun c =>
      (records.filter (fun r =>
          decide (r.exporter_name ∈ ((countries_ordered records).take n).map some
            ∧ r.importer_name ∈ ((countries_ordered records).take n).map some))).any
        (fun r => decide (r.importer_name = some c)))).map (fun i =>
      ((countries_ordered records).filter (fun c =>
        (records.filter (fun r =>
            decide (r.exporter_name ∈ ((countries_ordered records).take n).map some
              ∧ r.importer_name ∈ ((countries_ordered records).take n).map some))).any
          (fun r => decide (r.exporter_name = some c)))).map (fun e =>
        pairSum records i e)))
    = slice_for_n records n
  rw [hE, hI, ← slice_matrix_eq]
  rfl

theorem groupbySum_filter_irrelevant (records : List TradeRecord)
    (key : TradeRecord → Option Country) (P : TradeRecord → Bool)
    (hP : ∀ r ∈ records, P r = false → key r = Option.none) :
    groupbySum (records.filter P) key = groupbySum records key := by
  unfold groupbySum
  have hfm : (records.filter P).filterMap key = records.filterMap key := by
    induction records with
    | nil => rfl
    | cons r rs ih =>
      have ihs := ih (fun x hx h => hP x (List.mem_cons_of_mem r hx) h)
      rw [List.filter_cons]
      cases hpr : P r
      · have hkey := hP r (List.mem_cons_self r rs) hpr
        simp only [Bool.false_eq_true, if_false]
        rw [List.filterMap_cons_none hkey, ihs]
      · simp only [if_true]
        rw [List.filterMap_cons, List.filterMap_cons, ihs]
  rw [hfm]
  apply List.map_congr_left
  intro c _
  have hff : (records.filter P).filter (fun r => decide (key r = some c))
      = records.filter (fun r => decide (key r = some c)) := by
    rw [List.filter_filter]
    apply List.filter_congr
    intro r hr
    cases hpr : P r
    · cases hd : decide (key r = some c)
      · simp
      · exfalso
        have hkey := hP r hr hpr
        rw [hkey] at hd
        simp at hd
    · simp
  rw [hff]

/-- Rows whose exporter and importer codes both failed to resolve contribute
to no group: dropping them leaves the ranking unchanged (they are silently
ignored, no error is signalled). -/
theorem country_ranks_drop_nameless (records : List TradeRecord) :
    country_ranks (records.filter (fun r =>
        r.exporter_name.isSome || r.importer_name.isSome))
      = country_ranks records := by
  unfold country_ranks totalsList
  rw [groupbySum_filter_irrelevant _ _ _ ?_, groupbySum_filter_irrelevant _ _ _ ?_]
  · intro r _ h
    cases he : r.importer_name
    · rfl
    · rw [he] at h
      simp at h
  · intro r _ h
    cases he : r.exporter_name
    · rfl
    · rw [he] at h
      simp at h

/-- `slice_for_n` never validates `n`: any `n` at least the country count
yields the same full-size result. -/
theorem slice_for_n_clamp (records : List TradeRecord) {m : ℕ}
    (hm : (countries_ordered records).length ≤ m) :
    slice_for_n records m = slice_for_n records (countries_ordered records).length := by
  have h3 : ((full_matrix records).take m).map (fun row => row.take m)
      = ((full_matrix records).take (countries_ordered records).length).map
          (fun row => row.take (countries_ordered records).length) := by
    rw [List.take_of_length_le (by rw [full_matrix_length]; exact hm),
      List.take_of_length_le (by rw [full_matrix_length])]
    apply List.map_congr_left
    intro row hrow
    rw [List.take_of_length_le (by rw [full_matrix_row_length records hrow]; exact hm),
      List.take_of_length_le (by rw [full_matrix_row_length records hrow])]
  unfold slice_for_n
  rw [List.take_of_length_le hm, List.take_of_length_le (le_refl _), h3]

/-! ### Digit and grouping lemmas for `split_thousands` -/

theorem natDigitsRevAux_mem {fuel n : ℕ} {c : Char}
    (h : c ∈ natDigitsRevAux fuel n) : ∃ m, m < 10 ∧ c = Char.ofNat (48 + m) := by
  induction fuel generalizing n with
  | zero => cases h
  | succ fuel ih =>
    unfold natDigitsRevAux at h
    by_cases hn : n < 10
    · rw [if_pos hn] at h
      rcases List.mem_singleton.mp h with rfl
      exact ⟨n, hn, rfl⟩
    · rw [if_neg hn] at h
      rcases List.mem_cons.mp h with rfl | h2
      · exact ⟨n % 10, Nat.mod_lt n (by omega), rfl⟩
      · exact ih h2

theorem digitChar_ne : ∀ m, m < 10 →
    Char.ofNat (48 + m) ≠ apos ∧ Char.ofNat (48 + m) ≠ '.' ∧ Char.ofNat (48 + m) ≠ '-' := by
  decide

theorem groupRev_mem {sep : Char} {l : List Char} {k : ℕ} {c : Char}
    (h : c ∈ groupRev sep l k) : c = sep ∨ c ∈ l := by
  induction l generalizing k with
  | nil => cases h
  | cons a rest ih =>
    unfold groupRev at h
    by_cases hc : k % 3 = 2 ∧ rest ≠ []
    · rw [if_pos hc] at h
      rcases List.mem_cons.mp h with rfl | h2
      · exact Or.inr (List.mem_cons_self _ _)
      · rcases List.mem_cons.mp h2 with rfl | h3
        · exact Or.inl rfl
        · rcases ih h3 with h4 | h4
          · exact Or.inl h4
          · exact Or.inr (List.mem_cons_of_mem _ h4)
    · rw [if_neg hc] at h
      rcases List.mem_cons.mp h with rfl | h2
      · exact Or.inr (List.mem_cons_self _ _)
      · rcases ih h2 with h4 | h4
        · exact Or.inl h4
        · exact Or.inr (List.mem_cons_of_mem _ h4)

theorem groupRev_filter {sep : Char} {l : List Char} (hl : ∀ c ∈ l, c ≠ sep) :
    ∀ k, (groupRev sep l k).filter (fun c => decide (c ≠ sep)) = l := by
  induction l with
  | nil => intro k; rfl
  | cons a rest ih =>
    intro k
    have ha : a ≠ sep := hl a (List.mem_cons_self a rest)
    have hrest : ∀ c ∈ rest, c ≠ sep := fun c hc => hl c (List.mem_cons_of_mem a hc)
    unfold groupRev
    by_cases hc : k % 3 = 2 ∧ rest ≠ []
    · rw [if_pos hc]
      rw [List.filter_cons_of_pos (by simp [ha]), List.filter_cons_of_neg (by simp)]
      rw [ih hrest (k + 1)]
    · rw [if_neg hc]
      rw [List.filter_cons_of_pos (by simp [ha])]
      rw [ih hrest (k + 1)]

theorem intApos_data (n : ℤ) :
    (intApos n).data = (if n < 0 then ['-'] else [])
      ++ (groupRev apos (natDigitsRev n.natAbs) 0).reverse := by
  unfold intApos formatIntGrouped
  rw [String.data_append]
  by_cases hn : n < 0
  · rw [if_pos hn, if_pos hn]
  · rw [if_neg hn, if_neg hn]

/-! ### Claim theorems -/

/-- C10: `split_thousands` returns `"0"` when the input is `None`, a float
NaN, or a string that strips to empty; returns a non-empty unparseable
string unchanged (the original string); and formats ints (bools are a
separate constructor, excluded from the int branch) with apostrophes as
thousands separators and no decimal point — the apostrophe-free residue of
the output is exactly the sign and decimal digits, and the docstring
example `1000012 -> "1'000'012"` holds. -/
theorem claim_C10_split_thousands :
    (∀ d, split_thousands .none d = "0")
    ∧ (∀ d, split_thousands (.float .nan) d = "0")
    ∧ (∀ d s, pyStrip s = "" → split_thousands (.str s) d = "0")
    ∧ (∀ d s, pyStrip s ≠ "" → parseFloat (pyStrip s) = Option.none →
        split_thousands (.str s) d = s)
    ∧ (∀ d n, ('.' ∉ (split_thousands (.int n) d).data)
        ∧ ((split_thousands (.int n) d).data.filter (fun c => decide (c ≠ apos)))
            = (if n < 0 then ['-'] else []) ++ (natDigitsRev n.natAbs).reverse)
    ∧ split_thousands (.int 1000012) 2 = "1'000'012" := by
  refine ⟨fun d => rfl, fun d => rfl, ?_, ?_, ?_, by decide⟩
  · intro d s h
    simp [split_thousands, h]
  · intro d s h1 h2
    simp [split_thousands, h1, h2]
  · intro d n
    have hdig : ∀ c ∈ natDigitsRev n.natAbs, c ≠ apos := by
      intro c hc
      rcases natDigitsRevAux_mem hc with ⟨m, hm, rfl⟩
      exact (digitChar_ne m hm).1
    constructor
    · show ('.' ∉ (intApos n).data)
      rw [intApos_data]
      intro hmem
      rcases List.mem_append.mp hmem with h | h
      · by_cases hn : n < 0
        · rw [if_pos hn] at h
          rcases List.mem_singleton.mp h with h
          cases h
        · rw [if_neg hn] at h
          cases h
      · rcases groupRev_mem (List.mem_reverse.mp h) with h | h
        · cases h
        · rcases natDigitsRevAux_mem h with ⟨m, hm, he⟩
          exact (digitChar_ne m hm).2.1 he.symm
    · show ((intApos n).data.filter (fun c => decide (c ≠ apos))) = _
      rw [intApos_data, List.filter_append, List.filter_reverse,
        groupRev_filter hdig 0]
      congr 1
      by_cases hn : n < 0
      · simp only [if_pos hn]
        rw [List.filter_cons_of_pos (by decide), List.filter_nil]
      · simp only [if_neg hn]
        rfl

/-- C10 witness: a concrete unparseable string comes back unchanged. -/
theorem claim_C10_witness : split_thousands (.str "abc") 2 = "abc" :=
  claim_C10_split_thousands.2.2.2.1 2 "abc" (by decide) (by decide)

/-- C1: for every non-empty record collection and `top_n` in
`[2, number of ranked countries]`, the sliced matrix has exactly `top_n`
rows and `top_n` columns (as do the labels), every cell holds a rational
value by construction, and every (importer, exporter) pair with no
contributing record holds 0. -/
theorem claim_C1_matrix_shape_zero_fill (records : List TradeRecord) (n : ℕ)
    (_hne : records ≠ []) (_h2 : 2 ≤ n)
    (hK : n ≤ (countries_ordered records).length) :
    (slice_for_n records n).1.length = n
    ∧ (slice_for_n records n).2.2.length = n
    ∧ (∀ row ∈ (slice_for_n records n).2.2, row.length = n)
    ∧ (∀ i j, i < n → j < n →
        (∀ r ∈ records, ¬(r.importer_name = some ((countries_ordered records).getD i "")
            ∧ r.exporter_name = some ((countries_ordered records).getD j ""))) →
        ((slice_for_n records n).2.2.getD i []).getD j 0 = 0) := by
  refine ⟨?_, ?_, ?_, ?_⟩
  · show ((countries_ordered records).take n).length = n
    rw [List.length_take, Nat.min_eq_left hK]
  · rw [slice_matrix_length, Nat.min_eq_left hK]
  · intro row hrow
    rw [slice_row_length records n hrow, Nat.min_eq_left hK]
  · intro i j hi hj hno
    have hin : i < (countries_ordered records).length := lt_of_lt_of_le hi hK
    have hjn : j < (countries_ordered records).length := lt_of_lt_of_le hj hK
    rw [slice_cell records n hi hj hin hjn]
    apply pairSum_eq_zero_of_no_record
    intro r hr
    have h := hno r hr
    rwa [getD_of_lt _ _ hin, getD_of_lt _ _ hjn] at h

/-- C1 witness at the spec's example records with top_n = 2. -/
theorem claim_C1_witness :
    (slice_for_n [mkRec "A" "B" 10, mkRec "B" "A" 5, mkRec "A" "C" 1] 2).2.2.length = 2 :=
  (claim_C1_matrix_shape_zero_fill [mkRec "A" "B" 10, mkRec "B" "A" 5, mkRec "A" "C" 1] 2
    (by decide) (by decide) (by decide)).2.1

/-- C2 counterexample: with records `[B→Z 5, A→Z 5]` the totals of A and B
tie and B appears first in the input, yet the code ranks A (rank 2) ahead
of B (rank 3); the tie is broken by the position in the name-sorted totals
series, not by first appearance in the input. -/
theorem claim_C2_counterexample :
    country_ranks [mkRec "B" "Z" 5, mkRec "A" "Z" 5] = [("Z", 1), ("A", 2), ("B", 3)]
    ∧ totalQuantity [mkRec "B" "Z" 5, mkRec "A" "Z" 5] "A"
        = totalQuantity [mkRec "B" "Z" 5, mkRec "A" "Z" 5] "B"
    ∧ ([mkRec "B" "Z" 5, mkRec "A" "Z" 5].findIdx
          (fun r => decide (r.exporter_name = some "B")) = 0)
    ∧ ([mkRec "B" "Z" 5, mkRec "A" "Z" 5].findIdx
          (fun r => decide (r.exporter_name = some "A")) = 1) :=
  ⟨by decide, by decide, by decide, by decide⟩

/-- C2 amended: the ranking is computed from
`total[c] = Σ quantity as exporter + Σ quantity as importer` (a side with no
record contributes 0); every country appearing as exporter or importer
appears exactly once; the order is by total descending with ties broken by
ascending country name (the position in the alphabetically-sorted totals
series that pandas `rank(method="first")` ranks over), not by first
appearance in the input. -/
theorem claim_C2_amended (records : List TradeRecord) :
    (∀ c, c ∈ (country_ranks records).map (·.1) ↔ appearsIn records c)
    ∧ ((country_ranks records).map (·.1)).Nodup
    ∧ (∀ p q, p < q → q < (country_ranks records).length →
        totalQuantity records (((country_ranks records).getD q ("", 0)).1)
            < totalQuantity records (((country_ranks records).getD p ("", 0)).1)
          ∨ (totalQuantity records (((country_ranks records).getD p ("", 0)).1)
              = totalQuantity records (((country_ranks records).getD q ("", 0)).1)
            ∧ keyLT (((country_ranks records).getD p ("", 0)).1)
                (((country_ranks records).getD q ("", 0)).1))) := by
  refine ⟨fun _ => mem_country_ranks_fst, country_ranks_fst_nodup records, ?_⟩
  intro p q hpq hq
  have hp : p < (country_ranks records).length := lt_trans hpq hq
  rw [getD_of_lt _ _ hp, getD_of_lt _ _ hq]
  exact country_ranks_ordered records hp hq hpq

/-- C2 amended witness: on the tie example the adjacent tied entries have
equal totals and ascending names. -/
theorem claim_C2_amended_witness :
    totalQuantity [mkRec "B" "Z" 5, mkRec "A" "Z" 5]
        (((country_ranks [mkRec "B" "Z" 5, mkRec "A" "Z" 5]).getD 1 ("", 0)).1)
      = totalQuantity [mkRec "B" "Z" 5, mkRec "A" "Z" 5]
        (((country_ranks [mkRec "B" "Z" 5, mkRec "A" "Z" 5]).getD 2 ("", 0)).1)
    ∧ keyLT (((country_ranks [mkRec "B" "Z" 5, mkRec "A" "Z" 5]).getD 1 ("", 0)).1)
        (((country_ranks [mkRec "B" "Z" 5, mkRec "A" "Z" 5]).getD 2 ("", 0)).1) := by
  rcases (claim_C2_amended [mkRec "B" "Z" 5, mkRec "A" "Z" 5]).2.2 1 2
    (by decide) (by decide) with h | h
  · exact absurd h (by decide)
  · exact h

/-- C3: for every non-empty record collection the assigned ranks are, in
order, exactly the integers `1..K` (no gaps, no duplicates), where `K` is
the number of distinct countries appearing as exporter or importer. -/
theorem claim_C3_ranks_range (records : List TradeRecord) (_hne : records ≠ []) :
    (country_ranks records).map (·.2) = List.range' 1 (totalsKeys records).length
    ∧ (∀ c, c ∈ totalsKeys records ↔ appearsIn records c)
    ∧ (totalsKeys records).Nodup :=
  ⟨country_ranks_snd_eq records, fun _ => mem_totalsKeys, totalsKeys_nodup records⟩

/-- C3 witness at the spec's example records. -/
theorem claim_C3_witness :
    (country_ranks [mkRec "A" "B" 10, mkRec "B" "A" 5, mkRec "A" "C" 1]).map (·.2)
      = List.range' 1
          (totalsKeys [mkRec "A" "B" 10, mkRec "B" "A" 5, mkRec "A" "C" 1]).length :=
  (claim_C3_ranks_range [mkRec "A" "B" 10, mkRec "B" "A" 5, mkRec "A" "C" 1]
    (by decide)).1

/-- C4 counterexample: on the spec's own example records
`[(A→B, 10), (B→A, 5), (A→C, 1)]` the code yields `[[0, 5], [10, 0]]`
(rows are importers, columns exporters, in rank order), not the
`[[0, 10], [5, 0]]` stated in the spec: the spec's example matrix is
transposed relative to its own row/column convention. -/
theorem claim_C4_counterexample :
    (slice_for_n [mkRec "A" "B" 10, mkRec "B" "A" 5, mkRec "A" "C" 1] 2).2.2
      = [[0, 5], [10, 0]]
    ∧ ([[0, 5], [10, 0]] : List (List ℚ)) ≠ [[0, 10], [5, 0]] :=
  ⟨by decide, by decide⟩

/-- C4 amended: cell `[i][j]` of the built matrix is the sum of `quantity`
over all records whose importer is the rank-(i+1) country and whose
exporter is the rank-(j+1) country (the country at position `i` of
`country_ranks` carries rank `i+1`), rows importers and columns exporters
in ascending rank order; on the example records the ranks are A=1, B=2,
C=3 and the top-2 matrix over {A, B} is `[[0, 5], [10, 0]]`. -/
theorem claim_C4_amended :
    (∀ (records : List TradeRecord) (n i j : ℕ),
      n ≤ (countries_ordered records).length → i < n → j < n →
      ((country_ranks records).getD i ("", 0)).2 = i + 1
      ∧ ((slice_for_n records n).2.2.getD i []).getD j 0
          = ((records.filter (fun r =>
              decide (r.importer_name = some (((country_ranks records).getD i ("", 0)).1)
                ∧ r.exporter_name = some (((country_ranks records).getD j ("", 0)).1)))).map
            (·.quantity)).sum)
    ∧ (country_ranks [mkRec "A" "B" 10, mkRec "B" "A" 5, mkRec "A" "C" 1]
        = [("A", 1), ("B", 2), ("C", 3)])
    ∧ (slice_for_n [mkRec "A" "B" 10, mkRec "B" "A" 5, mkRec "A" "C" 1] 2
        = (["A", "B"], ["A", "B"], [[0, 5], [10, 0]])) := by
  refine ⟨?_, by decide, by decide⟩
  intro records n i j hK hi hj
  have hin : i < (countries_ordered records).length := lt_of_lt_of_le hi hK
  have hjn : j < (countries_ordered records).length := lt_of_lt_of_le hj hK
  have hicr : i < (country_ranks records).length := by
    rw [country_ranks_length, ← countries_ordered_length]
    exact hin
  have hjcr : j < (country_ranks records).length := by
    rw [country_ranks_length, ← countries_ordered_length]
    exact hjn
  constructor
  · rw [getD_of_lt _ _ hicr]
    exact country_ranks_get_snd records hicr
  · rw [slice_cell records n hi hj hin hjn, getD_of_lt _ _ hicr, getD_of_lt _ _ hjcr]
    have h1 : (countries_ordered records).get ⟨i, hin⟩
        = ((country_ranks records).get ⟨i, hicr⟩).1 := by
      simp [countries_ordered, List.get_eq_getElem, List.getElem_map]
    have h2 : (countries_ordered records).get ⟨j, hjn⟩
        = ((country_ranks records).get ⟨j, hjcr⟩).1 := by
      simp [countries_ordered, List.get_eq_getElem, List.getElem_map]
    rw [h1, h2]
    rfl

/-- C4 amended witness: on the example records the country at position 0
has rank 1. -/
theorem claim_C4_witness :
    ((country_ranks [mkRec "A" "B" 10, mkRec "B" "A" 5, mkRec "A" "C" 1]).getD 0 ("", 0)).2
      = 0 + 1 :=
  (claim_C4_amended.1 [mkRec "A" "B" 10, mkRec "B" "A" 5, mkRec "A" "C" 1] 2 0 1
    (by decide) (by decide) (by decide)).1

/-- C5 counterexample: with records `[(A→B, 10), (A→C, 9)]` and `top_n = 2`
the slice of the precomputed full matrix keeps the zero row for importer A
and the zero column for exporter B, while the per-call filter-and-pivot
build (`create_heatmap_data`) drops absent axes and returns a 1x1 matrix:
labels and cell values differ. -/
theorem claim_C5_counterexample :
    create_heatmap_data [mkRec "A" "B" 10, mkRec "A" "C" 9] 2
        = (["A"], ["B"], [[10]])
    ∧ slice_for_n [mkRec "A" "B" 10, mkRec "A" "C" 9] 2
        = (["A", "B"], ["A", "B"], [[0, 0], [10, 0]])
    ∧ create_heatmap_data [mkRec "A" "B" 10, mkRec "A" "C" 9] 2
        ≠ slice_for_n [mkRec "A" "B" 10, mkRec "A" "C" 9] 2 :=
  ⟨by decide, by decide, by decide⟩

/-- C5 amended: slicing the precomputed full matrix and the per-call
filter-and-pivot build agree exactly when every one of the first `top_n`
countries occurs among the top-restricted records both as exporter and as
importer (otherwise the per-call build drops the silent rows/columns that
the slice zero-fills). -/
theorem claim_C5_amended (records : List TradeRecord) (n : ℕ)
    (H : ∀ c ∈ (countries_ordered records).take n,
      ((records.filter (fun r =>
          decide (r.exporter_name ∈ ((countries_ordered records).take n).map some
            ∧ r.importer_name ∈ ((countries_ordered records).take n).map some))).any
        (fun r => decide (r.exporter_name = some c)) = true)
      ∧ ((records.filter (fun r =>
          decide (r.exporter_name ∈ ((countries_ordered records).take n).map some
            ∧ r.importer_name ∈ ((countries_ordered records).take n).map some))).any
        (fun r => decide (r.importer_name = some c)) = true)) :
    create_heatmap_data records n = slice_for_n records n :=
  create_heatmap_data_eq_slice records n H

/-- C5 amended witness: on the spec's example records both top-2 countries
trade with each other, and the two builds agree. -/
theorem claim_C5_witness :
    create_heatmap_data [mkRec "A" "B" 10, mkRec "B" "A" 5, mkRec "A" "C" 1] 2
      = slice_for_n [mkRec "A" "B" 10, mkRec "B" "A" 5, mkRec "A" "C" 1] 2 :=
  claim_C5_amended [mkRec "A" "B" 10, mkRec "B" "A" 5, mkRec "A" "C" 1] 2 (by decide)

/-- C6: increasing `top_n` by one adds exactly one row and one column, and
every previously present cell keeps its value. -/
theorem claim_C6_monotonic (records : List TradeRecord) (n : ℕ)
    (_h2 : 2 ≤ n) (hK : n + 1 ≤ (countries_ordered records).length) :
    (slice_for_n records (n + 1)).2.2.length = (slice_for_n records n).2.2.length + 1
    ∧ (∀ row ∈ (slice_for_n records (n + 1)).2.2, row.length = n + 1)
    ∧ (∀ row ∈ (slice_for_n records n).2.2, row.length = n)
    ∧ (∀ i j, i < n → j < n →
        ((slice_for_n records (n + 1)).2.2.getD i []).getD j 0
          = ((slice_for_n records n).2.2.getD i []).getD j 0) := by
  have hKn : n ≤ (countries_ordered records).length := le_trans (Nat.le_succ n) hK
  refine ⟨?_, ?_, ?_, ?_⟩
  · rw [slice_matrix_length, slice_matrix_length, Nat.min_eq_left hK, Nat.min_eq_left hKn]
  · intro row hrow
    rw [slice_row_length records _ hrow, Nat.min_eq_left hK]
  · intro row hrow
    rw [slice_row_length records _ hrow, Nat.min_eq_left hKn]
  · intro i j hi hj
    have hin : i < (countries_ordered records).length := lt_of_lt_of_le hi hKn
    have hjn : j < (countries_ordered records).length := lt_of_lt_of_le hj hKn
    rw [slice_cell records (n + 1) (Nat.lt_succ_of_lt hi) (Nat.lt_succ_of_lt hj) hin hjn,
      slice_cell records n hi hj hin hjn]

/-- C6 witness on the spec's example records, n = 2. -/
theorem claim_C6_witness :
    ((slice_for_n [mkRec "A" "B" 10, mkRec "B" "A" 5, mkRec "A" "C" 1] 3).2.2.getD 0 []).getD 1 0
      = ((slice_for_n [mkRec "A" "B" 10, mkRec "B" "A" 5, mkRec "A" "C" 1] 2).2.2.getD 0 []).getD 1 0 :=
  (claim_C6_monotonic [mkRec "A" "B" 10, mkRec "B" "A" 5, mkRec "A" "C" 1] 2
    (by decide) (by decide)).2.2.2 0 1 (by decide) (by decide)

/-- C7 counterexample: with 3 ranked countries, `slice_for_n 4` silently
returns a 3x3 matrix and `slice_for_n 1` a 1x1 matrix; no invalid-argument
rejection exists in the code. -/
theorem claim_C7_counterexample :
    (slice_for_n [mkRec "A" "B" 10, mkRec "B" "A" 5, mkRec "A" "C" 1] 4).2.2.length = 3
    ∧ (slice_for_n [mkRec "A" "B" 10, mkRec "B" "A" 5, mkRec "A" "C" 1] 1).2.2.length = 1 :=
  ⟨by decide, by decide⟩

/-- C7 amended: `slice_for_n` performs no validation of `top_n`: it is a
total function whose output always has `min top_n K` rows and columns, so
`top_n` above the country count K is silently clamped to the full matrix
and `top_n` below 2 yields a smaller matrix; the `[2, K]` range is enforced
only by the UI slider, not by the kernel. -/
theorem claim_C7_amended (records : List TradeRecord) (n : ℕ) :
    (slice_for_n records n).1.length = min n (countries_ordered records).length
    ∧ (slice_for_n records n).2.2.length = min n (countries_ordered records).length
    ∧ (∀ row ∈ (slice_for_n records n).2.2,
        row.length = min n (countries_ordered records).length)
    ∧ (∀ m, (countries_ordered records).length ≤ m →
        slice_for_n records m
          = slice_for_n records (countries_ordered records).length) := by
  refine ⟨?_, slice_matrix_length records n, ?_, ?_⟩
  · show ((countries_ordered records).take n).length = _
    rw [List.length_take]
  · intro row hrow
    exact slice_row_length records n hrow
  · intro m hm
    exact slice_for_n_clamp records hm

/-- C7 amended witness: on three countries, slicing at 4 equals slicing at
the country count 3. -/
theorem claim_C7_witness :
    slice_for_n [mkRec "A" "B" 10, mkRec "B" "A" 5, mkRec "A" "C" 1] 4
      = slice_for_n [mkRec "A" "B" 10, mkRec "B" "A" 5, mkRec "A" "C" 1] 3 := by
  have h := (claim_C7_amended [mkRec "A" "B" 10, mkRec "B" "A" 5, mkRec "A" "C" 1] 4).2.2.2
    4 (by decide)
  rw [show (countries_ordered [mkRec "A" "B" 10, mkRec "B" "A" 5, mkRec "A" "C" 1]).length
      = 3 from by decide] at h
  exact h

/-- C8 counterexample: a raw row whose exporter and importer codes are both
absent from the name lookup resolves to NaN names and is silently excluded
from the ranking totals: the computation returns a normal ranking (its 7
tons appear in no total) and signals no data-quality error. -/
theorem claim_C8_counterexample :
    country_ranks (oak_df [(1, "A"), (2, "B")]
        [⟨2023, 1, 2, 440791, 0, 5⟩, ⟨2023, 3, 4, 440791, 0, 7⟩])
      = [("A", 1), ("B", 2)] := by
  decide

/-- C8 amended: rows of `oak_df` whose codes both fail the name lookup get
NaN keys and are silently dropped by the grouping: removing every
fully-unresolvable row leaves `country_ranks` unchanged, and the
computation is total — no error is signalled to the caller. -/
theorem claim_C8_amended (table : List (ℕ × Country)) (rows : List RawRecord) :
    country_ranks ((oak_df table rows).filter (fun r =>
        r.exporter_name.isSome || r.importer_name.isSome))
      = country_ranks (oak_df table rows) :=
  country_ranks_drop_nameless (oak_df table rows)

/-- C9: when every record's exporter and importer names appear in the
ranked country list, the sum of all cells of the full matrix equals the
sum of all record quantities. -/
theorem claim_C9_conservation (records : List TradeRecord)
    (H : ∀ r ∈ records, r.importer_name ∈ (countries_ordered records).map some
        ∧ r.exporter_name ∈ (countries_ordered records).map some) :
    ((full_matrix records).map List.sum).sum = (records.map (·.quantity)).sum := by
  unfold full_matrix
  rw [List.map_map]
  have H2 : ∀ r ∈ records,
      (∃ ci, r.importer_name = some ci ∧ ci ∈ countries_ordered records)
      ∧ (∃ ce, r.exporter_name = some ce ∧ ce ∈ countries_ordered records) := by
    intro r hr
    rcases H r hr with ⟨hi, he⟩
    rcases List.mem_map.mp hi with ⟨ci, hci, hcie⟩
    rcases List.mem_map.mp he with ⟨ce, hce, hcee⟩
    exact ⟨⟨ci, hcie.symm, hci⟩, ⟨ce, hcee.symm, hce⟩⟩
  exact matrix_total (countries_ordered records) (countries_ordered_nodup records)
    records H2

/-- C9 witness on the spec's example records. -/
theorem claim_C9_witness :
    ((full_matrix [mkRec "A" "B" 10, mkRec "B" "A" 5, mkRec "A" "C" 1]).map List.sum).sum
      = ([mkRec "A" "B" 10, mkRec "B" "A" 5, mkRec "A" "C" 1].map (·.quantity)).sum :=
  claim_C9_conservation [mkRec "A" "B" 10, mkRec "B" "A" 5, mkRec "A" "C" 1] (by decide)


end HeatmapDemo
